import Mathlib

/-!
# Heading-tree construction of `Article.GenTOC` (package `solitudes`, `article.go`)

A shallow embedding of `GenTOC` and of the two regular expressions it uses.

* Go strings are lists of characters (valid UTF-8 text).
* `*ArticleTOC` pointers are addresses into an explicit heap (`List ArticleTOC`);
  `nil` is `none`.  Every read through a pointer is a `deref` that fails on `nil`
  (and on an address outside the heap), so the embedded algorithm returns `none`
  exactly where the Go code would dereference a nil pointer.
* Go `int` is `Int`; no arithmetic in `GenTOC` can overflow for inputs that fit in memory.
-/

namespace Solitudes

/-! ## Data model (`article.go`, lines 12-51) -/

/-- Record `ArticleTOC`; `SubTitles` and `Parent` hold heap addresses. -/
structure ArticleTOC where
  Title : List Char
  Slug : List Char
  SubTitles : List Nat
  Parent : Option Nat
  Level : Int
  ShowLevel : Int
deriving DecidableEq, Repr

/-- The memory holding every allocated `ArticleTOC`; an address is a position. -/
abbrev Heap := List ArticleTOC

/-- The two fields of `Article` that `GenTOC` reads or writes. -/
structure Article where
  Content : List Char
  Toc : List Nat
deriving DecidableEq, Repr

/-- Pointer dereference: fails on `nil` and on an address that was never allocated. -/
def deref (heap : Heap) : Option Nat → Option ArticleTOC
  | none => none
  | some p => heap[p]?

/-! ## The regular expressions (`article.go`, lines 91-92) -/

/-- Perl class `\s` of Go's `regexp` (RE2 syntax): exactly `[\t\n\f\r ]`. -/
def isSpace (c : Char) : Bool :=
  c == '\t' || c == '\n' || c == '\x0c' || c == '\r' || c == ' '

/-- Tail `(.*)$` of `titleRegex`: `.` matches any character but a newline and `$`
only the end of the text, so the rest of the text is captured iff it has no newline. -/
def matchTail (s : List Char) : Option (List Char) :=
  if s.all (fun c => c != '\n') then some s else none

/-- Part `\s(.*)$` of `titleRegex`. -/
def matchSep : List Char → Option (List Char)
  | [] => none
  | c :: rest => if isSpace c then matchTail rest else none

/-- Part `(#{1,6})\s(.*)$` of `titleRegex`, trying `k`, `k - 1`, ..., `1` markers in that
order (the repetition is greedy; the first count whose continuation matches wins). -/
def matchHashes (s : List Char) : Nat → Option (List Char × List Char)
  | 0 => none
  | k + 1 =>
    if (s.take (k + 1)).length = k + 1 ∧ (s.take (k + 1)).all (fun c => c == '#') then
      match matchSep (s.drop (k + 1)) with
      | some t => some (s.take (k + 1), t)
      | none => matchHashes s k
    else matchHashes s k

/-- Part `\s{0,2}(#{1,6})\s(.*)$` of `titleRegex`, trying `k`, ..., `0` leading blanks. -/
def matchBlanks (s : List Char) : Nat → Option (List Char × List Char)
  | 0 => matchHashes s 6
  | k + 1 =>
    if (s.take (k + 1)).length = k + 1 ∧ (s.take (k + 1)).all isSpace then
      match matchHashes (s.drop (k + 1)) 6 with
      | some r => some r
      | none => matchBlanks s k
    else matchBlanks s k

/-- Submatches 1 and 2 of `titleRegex.FindStringSubmatch(line)` for
`titleRegex = ^\s{0,2}(#{1,6})\s(.*)$`; `none` when the line does not match
(Go returns a nil slice, whose length is not 3). -/
def titleRegex (line : List Char) : Option (List Char × List Char) :=
  matchBlanks line 2

/-- Character class `[\s|\.]` of `whitespaces`: inside brackets `|` is a literal. -/
def whitespacesClass (c : Char) : Bool :=
  isSpace c || c == '|' || c == '.'

/-- Scan of `ReplaceAllString`: `inMatch` tells that the previous character belongs to the
match being consumed, whose replacement `-` was already written. -/
def replaceRuns (inMatch : Bool) : List Char → List Char
  | [] => []
  | c :: cs =>
    if whitespacesClass c then
      if inMatch then replaceRuns true cs else '-' :: replaceRuns true cs
    else c :: replaceRuns false cs

/-- Function `whitespaces.ReplaceAllString(s, "-")` for `whitespaces = [\s|\.]{1,}`:
every leftmost-longest run of class characters becomes one `-`. -/
def whitespaces (s : List Char) : List Char :=
  replaceRuns false s

/-- Function `strings.Split(s, "\n")`. -/
def splitLines : List Char → List (List Char)
  | [] => [[]]
  | c :: cs =>
    if c = '\n' then [] :: splitLines cs
    else
      match splitLines cs with
      | [] => [[c]]
      | l :: ls => (c :: l) :: ls

/-! ## `GenTOC` (`article.go`, lines 94-147) -/

/-- Loop state of `GenTOC`: the heap, `t.Toc` and the local `currentToc`. -/
structure GenState where
  heap : Heap
  Toc : List Nat
  currentToc : Option Nat
deriving DecidableEq, Repr

/-- Lines 104-108: the fresh `toc` with `Level`, `ShowLevel`, `Title` and `Slug` set. -/
def newToc (m1 m2 : List Char) : ArticleTOC :=
  { Title := m2
    Slug := whitespaces m2
    SubTitles := []
    Parent := none
    Level := (m1.length : Int)
    ShowLevel := 2 }

/-- Statement `t.Toc = append(t.Toc, &toc)` followed by `currentToc = &toc`; the fresh
`toc` is stored at the first free address. -/
def appendRoot (s : GenState) (toc : ArticleTOC) : GenState :=
  { heap := s.heap ++ [toc]
    Toc := s.Toc ++ [s.heap.length]
    currentToc := some s.heap.length }

/-- Statements `toc.Parent = p; toc.ShowLevel = showLevel;
p.SubTitles = append(p.SubTitles, &toc)` followed by `currentToc = &toc`. -/
def attach (s : GenState) (toc : ArticleTOC) (p : Nat) (showLevel : Int) :
    Option GenState :=
  match s.heap[p]? with
  | none => none
  | some pn =>
    some
      { heap :=
          s.heap.set p { pn with SubTitles := pn.SubTitles ++ [s.heap.length] } ++
            [{ toc with Parent := some p, ShowLevel := showLevel }]
        Toc := s.Toc
        currentToc := some s.heap.length }

/-- Loop of lines 117-122 with `n` iterations left:
`parent = parent.Parent; if parent == nil || parent.Level < toc.Level { break }`.
The result is the final value of `parent`. -/
def walkUp (heap : Heap) (tocLevel : Int) : Nat → Option Nat → Option (Option Nat)
  | 0, parent => some parent
  | n + 1, parent =>
    match deref heap parent with
    | none => none
    | some pn =>
      match pn.Parent with
      | none => some none
      | some q =>
        match heap[q]? with
        | none => none
        | some qn =>
          if qn.Level < tocLevel then some (some q) else walkUp heap tocLevel n (some q)

/-- Lines 104-145: the loop body for a line that matched, with submatches `m1`, `m2`. -/
def addHeading (s : GenState) (m1 m2 : List Char) : Option GenState :=
  let toc := newToc m1 m2
  match s.currentToc with
  | none => some (appendRoot s toc)
  | some cur =>
    match s.heap[cur]? with
    | none => none
    | some c =>
      if c.Level > toc.Level then
        -- `for i := -1; i < currentToc.Level-toc.Level; i++` runs at most
        -- `currentToc.Level - toc.Level + 1` times
        match walkUp s.heap toc.Level (Int.toNat (c.Level - toc.Level + 1)) (some cur) with
        | none => none
        | some none => some (appendRoot s toc)
        | some (some p) =>
          match s.heap[p]? with
          | none => none
          | some pn => attach s toc p (pn.ShowLevel + 1)
      else if c.Level = toc.Level then
        match c.Parent with
        | none => some (appendRoot s toc)
        | some gp => attach s toc gp (c.ShowLevel + 1)
      else attach s toc cur (c.ShowLevel + 1)

/-- Lines 100-145: one iteration of the loop over the lines. -/
def loopBody (s : GenState) (line : List Char) : Option GenState :=
  match titleRegex line with
  | none => some s
  | some (m1, m2) => addHeading s m1 m2

/-- Lines 99-146: the loop over all lines. -/
def genLoop : GenState → List (List Char) → Option GenState
  | s, [] => some s
  | s, line :: rest =>
    match loopBody s line with
    | none => none
    | some s1 => genLoop s1 rest

/-- Method `(t *Article) GenTOC()`, run in memory `heap`; it returns the memory and the
article after the call, or `none` if a nil pointer is dereferenced. -/
def GenTOC (heap : Heap) (t : Article) : Option (Heap × Article) :=
  match genLoop { heap := heap, Toc := t.Toc, currentToc := none } (splitLines t.Content) with
  | none => none
  | some s => some (s.heap, { t with Toc := s.Toc })

/-! ## Observing the result -/

/-- A heading tree as a value: what is seen from a root by following `SubTitles`. -/
inductive TocTree where
  | node (Title Slug : List Char) (Level ShowLevel : Int) (SubTitles : List TocTree)

/-- The forest seen from the pointers `ps` in `heap`, followed down to depth `d`. -/
def readForest (heap : Heap) : Nat → List Nat → List TocTree
  | 0, _ => []
  | d + 1, ps =>
    ps.filterMap (fun p =>
      (heap[p]?).map (fun nd =>
        TocTree.node nd.Title nd.Slug nd.Level nd.ShowLevel (readForest heap d nd.SubTitles)))

/-- Field `SubTitles` of the node at address `p`. -/
def subsOf (heap : Heap) (p : Nat) : List Nat :=
  match heap[p]? with
  | some nd => nd.SubTitles
  | none => []

/-- Pre-order walk from the pointers `ps` down to depth `d`: a node, then the walks of its
`SubTitles` in order, then the next pointer of `ps`. -/
def preorder (heap : Heap) : Nat → List Nat → List Nat
  | 0, _ => []
  | d + 1, ps => ps.flatMap (fun p => p :: preorder heap d (subsOf heap p))

/-- The heading lines of a content, in order, as the submatches of `titleRegex`. -/
def headingLines (content : List Char) : List (List Char × List Char) :=
  (splitLines content).filterMap titleRegex

/-! ## Shape of the heap built by `GenTOC` -/

/-- Field `Parent` of the node at address `i` as a number: `0` for `nil` (and for an address
outside the heap), `p + 1` for the address `p`. -/
def pcode (heap : Heap) (i : Nat) : Nat :=
  match heap[i]? with
  | some nd =>
    match nd.Parent with
    | none => 0
    | some p => p + 1
  | none => 0

/-- The addresses whose `Parent` has code `x`, in increasing order. -/
def kids (heap : Heap) (x : Nat) : List Nat :=
  (List.range heap.length).filter (fun j => pcode heap j == x)

/-- Relation `Anc heap c a`: following `Parent` from `c` zero or more times reaches `a`. -/
inductive Anc (heap : Heap) : Nat → Nat → Prop
  | self (c : Nat) : Anc heap c c
  | up (c b a : Nat) : pcode heap c = b + 1 → Anc heap b a → Anc heap c a

/-- Invariant of the loop of `GenTOC` started in an empty memory with an empty `Toc`. -/
structure WF (s : GenState) : Prop where
  cur : s.currentToc = if s.heap.length = 0 then none else some (s.heap.length - 1)
  par : ∀ i : Nat, pcode s.heap i ≤ i
  subs : ∀ (p : Nat) (nd : ArticleTOC), s.heap[p]? = some nd → nd.SubTitles = kids s.heap (p + 1)
  toc : s.Toc = kids s.heap 0
  nc : ∀ i j : Nat, pcode s.heap i ≤ j → j < i → pcode s.heap i ≤ pcode s.heap j
  root : ∀ (i : Nat) (nd : ArticleTOC), s.heap[i]? = some nd → nd.Parent = none → nd.ShowLevel = 2

/-- The fields of a node that come from its heading line. -/
def lineData (nd : ArticleTOC) : Int × List Char × List Char :=
  (nd.Level, nd.Title, nd.Slug)

/-- The same three values computed from the submatches of a heading line: the number of
markers, the captured title and the slug of the title. -/
def headingData (m : List Char × List Char) : Int × List Char × List Char :=
  ((m.1.length : Int), m.2, whitespaces m.2)

/-! ## Whitespace, in the words of the specification -/

/-- A whitespace character in the usual sense of the word: the Unicode property
`White_Space`, which is what Go's `unicode.IsSpace` accepts. It has the five characters of
the class `\s` and also vertical tab, U+0085, U+00A0, U+1680, U+2000 to U+200A, U+2028,
U+2029, U+202F, U+205F and U+3000. -/
def isUnicodeSpace (c : Char) : Bool :=
  (9 ≤ c.toNat && c.toNat ≤ 13) || c.toNat == 0x20 || c.toNat == 0x85 || c.toNat == 0xA0 ||
    c.toNat == 0x1680 || (0x2000 ≤ c.toNat && c.toNat ≤ 0x200A) || c.toNat == 0x2028 ||
    c.toNat == 0x2029 || c.toNat == 0x202F || c.toNat == 0x205F || c.toNat == 0x3000

/-! ## The marker run of a line, in the words of the specification -/

/-- The characters of a line before its first `#`. -/
def beforeRun (line : List Char) : List Char :=
  line.takeWhile (fun c => c != '#')

/-- The leading marker run of a line: its first maximal run of `#`. -/
def markerRun (line : List Char) : List Char :=
  (line.dropWhile (fun c => c != '#')).takeWhile (fun c => c == '#')

/-- The characters of a line after its leading marker run. -/
def afterRun (line : List Char) : List Char :=
  (line.dropWhile (fun c => c != '#')).dropWhile (fun c => c == '#')

/-! ## The same heap laid out after an older one -/

/-- The node `nd` with the addresses it holds moved `k` places up. -/
def shiftToc (k : Nat) (nd : ArticleTOC) : ArticleTOC :=
  { nd with
    SubTitles := nd.SubTitles.map (fun p => p + k)
    Parent := nd.Parent.map (fun p => p + k) }

/-- The loop state `s` as it appears when the memory already held `h0` and `Toc`
already held `t0` before the first node was allocated. -/
def shiftState (h0 : Heap) (t0 : List Nat) (s : GenState) : GenState :=
  { heap := h0 ++ s.heap.map (shiftToc h0.length)
    Toc := t0 ++ s.Toc.map (fun p => p + h0.length)
    currentToc := s.currentToc.map (fun p => p + h0.length) }

/-- The forest determined by a content alone, read to depth `d`: what `GenTOC` builds in an
empty memory for an article with an empty `Toc`. -/
def forestOf (content : List Char) (d : Nat) : List TocTree :=
  match GenTOC [] { Content := content, Toc := [] } with
  | some (heap, art) => readForest heap d art.Toc
  | none => []

/-! ## Levels along the parent links -/

/-- Field `Level` of the node at address `i` (`0` for an address outside the heap). -/
def levelAt (heap : Heap) (i : Nat) : Int :=
  match heap[i]? with
  | some nd => nd.Level
  | none => 0

/-- Field `ShowLevel` of the node at address `i` (`0` for an address outside the heap). -/
def showAt (heap : Heap) (i : Nat) : Int :=
  match heap[i]? with
  | some nd => nd.ShowLevel
  | none => 0

/-- Relation `ProperAnc heap c a`: following `Parent` from `c` one or more times
reaches `a`. -/
def ProperAnc (heap : Heap) (c a : Nat) : Prop :=
  ∃ q, pcode heap c = q + 1 ∧ Anc heap q a

/-- Relation `AncSteps heap c a k`: following `Parent` from `c` exactly `k` times
reaches `a`. -/
inductive AncSteps (heap : Heap) : Nat → Nat → Nat → Prop
  | self (c : Nat) : AncSteps heap c c 0
  | up (c b a k : Nat) : pcode heap c = b + 1 → AncSteps heap b a k →
      AncSteps heap c a (k + 1)

/-- Every node that has a parent has a greater `Level` than its parent. -/
def LevelsRise (heap : Heap) : Prop :=
  ∀ i p : Nat, pcode heap i = p + 1 → levelAt heap p < levelAt heap i

/-- The outcome of an unbounded walk up from `c`, in words: `some a` when `a` is the nearest
proper ancestor of `c` whose `Level` is below `lvl` (a proper ancestor of `c`, with
`Level < lvl`, every proper ancestor of `c` met before it having `Level ≥ lvl`), and `none`
when no proper ancestor of `c` has a `Level` below `lvl`. -/
def NearestShallower (heap : Heap) (lvl : Int) (c : Nat) : Option Nat → Prop
  | some a =>
    ProperAnc heap c a ∧ levelAt heap a < lvl ∧
      ∀ b, ProperAnc heap c b → ProperAnc heap b a → lvl ≤ levelAt heap b
  | none => ∀ b, ProperAnc heap c b → lvl ≤ levelAt heap b

/-- The loop body applied to the submatches of the heading lines only, in order. -/
def genHeadings : GenState → List (List Char × List Char) → Option GenState
  | s, [] => some s
  | s, m :: rest =>
    match addHeading s m.1 m.2 with
    | none => none
    | some s1 => genHeadings s1 rest

/-! ## The heading pattern -/

theorem isSpace_hash : isSpace '#' = false := by decide

theorem matchTail_eq (s t : List Char) :
    matchTail s = some t ↔ s = t ∧ ∀ c ∈ t, c ≠ '\n' := by
  unfold matchTail
  split
  · rename_i h
    simp only [List.all_eq_true, bne_iff_ne, ne_eq] at h
    constructor
    · intro e
      cases e
      exact ⟨rfl, h⟩
    · rintro ⟨rfl, -⟩
      rfl
  · rename_i h
    simp only [List.all_eq_true, bne_iff_ne, ne_eq] at h
    constructor
    · intro e
      cases e
    · rintro ⟨rfl, h2⟩
      exact absurd h2 h

theorem matchSep_eq (s t : List Char) :
    matchSep s = some t ↔ ∃ c, s = c :: t ∧ isSpace c = true ∧ ∀ x ∈ t, x ≠ '\n' := by
  cases s with
  | nil => simp [matchSep]
  | cons c rest =>
    simp only [matchSep]
    split
    · rename_i h
      rw [matchTail_eq]
      constructor
      · rintro ⟨rfl, h2⟩
        exact ⟨c, rfl, h, h2⟩
      · rintro ⟨c2, e, -, h2⟩
        cases e
        exact ⟨rfl, h2⟩
    · rename_i h
      constructor
      · intro e
        cases e
      · rintro ⟨c2, e, h1, -⟩
        cases e
        exact absurd h1 h

/-- Taking more than `l₁.length` elements of `l₁ ++ x :: l₂` takes `x`. -/
theorem mem_take_append_cons {α : Type} (l₁ l₂ : List α) (x : α) (n : Nat)
    (h : l₁.length < n) : x ∈ (l₁ ++ x :: l₂).take n := by
  obtain ⟨m, hm⟩ : ∃ m, n - l₁.length = m + 1 := ⟨n - l₁.length - 1, by omega⟩
  rw [List.take_append_eq_append_take, hm, List.take_succ_cons]
  simp

theorem matchHashes_eq (s : List Char) (k : Nat) (hs t : List Char) :
    matchHashes s k = some (hs, t) ↔
      ∃ c, s = hs ++ c :: t ∧ 1 ≤ hs.length ∧ hs.length ≤ k ∧ (∀ h ∈ hs, h = '#') ∧
        isSpace c = true ∧ ∀ x ∈ t, x ≠ '\n' := by
  induction k with
  | zero =>
    simp only [matchHashes]
    constructor
    · intro e
      cases e
    · rintro ⟨c, -, h1, h2, -⟩
      omega
  | succ k ih =>
    have back : (∃ c, s = hs ++ c :: t ∧ 1 ≤ hs.length ∧ hs.length ≤ k + 1 ∧
        (∀ h ∈ hs, h = '#') ∧ isSpace c = true ∧ ∀ x ∈ t, x ≠ '\n') →
        ¬ ((s.take (k + 1)).length = k + 1 ∧
          (s.take (k + 1)).all (fun c => c == '#') = true) →
        matchHashes s k = some (hs, t) := by
      rintro ⟨c, e, h1, h2, h3, h4, h5⟩ hc
      apply ih.2
      refine ⟨c, e, h1, ?_, h3, h4, h5⟩
      by_contra hk
      have hl : hs.length = k + 1 := by omega
      apply hc
      have ht : s.take (k + 1) = hs := by
        rw [e, ← hl, List.take_left]
      rw [ht]
      refine ⟨hl, ?_⟩
      simp only [List.all_eq_true, beq_iff_eq]
      exact h3
    simp only [matchHashes]
    split
    · rename_i hc
      split
      · rename_i t2 hsep
        rw [matchSep_eq] at hsep
        obtain ⟨c, e, hsp, hnl⟩ := hsep
        have hs2 : s = s.take (k + 1) ++ c :: t2 := by
          rw [← e, List.take_append_drop]
        have hall : ∀ h ∈ s.take (k + 1), h = '#' := by
          have := hc.2
          simpa only [List.all_eq_true, beq_iff_eq] using this
        constructor
        · intro e2
          cases e2
          exact ⟨c, hs2, by omega, by omega, hall, hsp, hnl⟩
        · rintro ⟨c2, e2, h1, h2, h3, h4, h5⟩
          -- both decompositions split `s` at its first non-marker character
          have hlen : hs.length = k + 1 := by
            rcases Nat.lt_trichotomy hs.length (k + 1) with hlt | heq | hgt
            · exfalso
              have hm : c2 ∈ s.take (k + 1) := by
                rw [e2]
                exact mem_take_append_cons hs t c2 (k + 1) hlt
              have := hall c2 hm
              rw [this] at h4
              exact absurd h4 (by decide)
            · exact heq
            · omega
          have ht : s.take (k + 1) = hs := by
            rw [e2, ← hlen, List.take_left]
          have hd : s.drop (k + 1) = c2 :: t := by
            rw [e2, ← hlen, List.drop_left]
          rw [e] at hd
          cases hd
          rw [ht]
      · rename_i hsep
        constructor
        · intro e
          have := (ih.1 e)
          obtain ⟨c, e, h1, h2, h3, h4, h5⟩ := this
          exact ⟨c, e, h1, by omega, h3, h4, h5⟩
        · intro h
          obtain ⟨c, e, h1, h2, h3, h4, h5⟩ := h
          apply ih.2
          refine ⟨c, e, h1, ?_, h3, h4, h5⟩
          by_contra hk
          have hl : hs.length = k + 1 := by omega
          have hd : s.drop (k + 1) = c :: t := by
            rw [e, ← hl, List.drop_left]
          have : matchSep (s.drop (k + 1)) = some t := by
            rw [matchSep_eq]
            exact ⟨c, hd, h4, h5⟩
          rw [this] at hsep
          cases hsep
    · rename_i hc
      constructor
      · intro e
        obtain ⟨c, e, h1, h2, h3, h4, h5⟩ := ih.1 e
        exact ⟨c, e, h1, by omega, h3, h4, h5⟩
      · intro h
        exact back h hc

theorem matchBlanks_eq (s : List Char) (k : Nat) (hs t : List Char) :
    matchBlanks s k = some (hs, t) ↔
      ∃ ws c, s = ws ++ hs ++ c :: t ∧ ws.length ≤ k ∧ (∀ w ∈ ws, isSpace w = true) ∧
        1 ≤ hs.length ∧ hs.length ≤ 6 ∧ (∀ h ∈ hs, h = '#') ∧
        isSpace c = true ∧ ∀ x ∈ t, x ≠ '\n' := by
  induction k with
  | zero =>
    simp only [matchBlanks]
    rw [matchHashes_eq]
    constructor
    · rintro ⟨c, e, h1, h2, h3, h4, h5⟩
      exact ⟨[], c, by simpa using e, by simp, by simp, h1, h2, h3, h4, h5⟩
    · rintro ⟨ws, c, e, h0, hw, h1, h2, h3, h4, h5⟩
      have : ws = [] := List.length_eq_zero.mp (by omega)
      subst this
      exact ⟨c, by simpa using e, h1, h2, h3, h4, h5⟩
  | succ k ih =>
    -- a decomposition with fewer than `k + 1` blanks makes the attempt with `k + 1` fail
    have short : ∀ ws c, s = ws ++ hs ++ c :: t → ws.length ≤ k → 1 ≤ hs.length →
        (∀ h ∈ hs, h = '#') →
        ¬ ((s.take (k + 1)).length = k + 1 ∧ (s.take (k + 1)).all isSpace = true) := by
      intro ws c e hk h1 h3 hc
      obtain ⟨h, hs2, rfl⟩ : ∃ h hs2, hs = h :: hs2 := by
        cases hs with
        | nil => simp at h1
        | cons h hs2 => exact ⟨h, hs2, rfl⟩
      have hh : h = '#' := h3 h (by simp)
      have hm : h ∈ s.take (k + 1) := by
        rw [e, List.append_assoc, List.cons_append]
        exact mem_take_append_cons ws _ h (k + 1) (by omega)
      have := hc.2
      simp only [List.all_eq_true] at this
      have := this h hm
      rw [hh] at this
      exact absurd this (by decide)
    simp only [matchBlanks]
    split
    · rename_i hc
      split
      · rename_i r hr
        obtain ⟨hs2, t2⟩ := r
        rw [matchHashes_eq] at hr
        obtain ⟨c, e, h1, h2, h3, h4, h5⟩ := hr
        have hall : ∀ w ∈ s.take (k + 1), isSpace w = true := by
          have := hc.2
          simpa only [List.all_eq_true] using this
        have hs2eq : s = s.take (k + 1) ++ hs2 ++ c :: t2 := by
          rw [List.append_assoc, ← e, List.take_append_drop]
        constructor
        · intro e2
          cases e2
          exact ⟨s.take (k + 1), c, hs2eq, by omega, hall, h1, h2, h3, h4, h5⟩
        · rintro ⟨ws, c2, e2, h0, hw, g1, g2, g3, g4, g5⟩
          have hlen : ws.length = k + 1 := by
            by_contra hne
            exact short ws c2 e2 (by omega) g1 g3 hc
          have hd : s.drop (k + 1) = hs ++ c2 :: t := by
            rw [e2, List.append_assoc, ← hlen, List.drop_left]
          have : matchHashes (s.drop (k + 1)) 6 = some (hs, t) := by
            rw [matchHashes_eq]
            exact ⟨c2, hd, g1, g2, g3, g4, g5⟩
          rw [matchHashes_eq] at this
          obtain ⟨c3, e3, -⟩ := this
          have m1 : matchHashes (s.drop (k + 1)) 6 = some (hs2, t2) := by
            rw [matchHashes_eq]
            exact ⟨c, e, h1, h2, h3, h4, h5⟩
          have m2 : matchHashes (s.drop (k + 1)) 6 = some (hs, t) := by
            rw [matchHashes_eq]
            exact ⟨c2, hd, g1, g2, g3, g4, g5⟩
          rw [m1] at m2
          exact m2
      · rename_i hr
        constructor
        · intro e
          obtain ⟨ws, c, e, h0, rest⟩ := ih.1 e
          exact ⟨ws, c, e, by omega, rest⟩
        · rintro ⟨ws, c2, e2, h0, hw, g1, g2, g3, g4, g5⟩
          apply ih.2
          refine ⟨ws, c2, e2, ?_, hw, g1, g2, g3, g4, g5⟩
          by_contra hne
          have hlen : ws.length = k + 1 := by omega
          have hd : s.drop (k + 1) = hs ++ c2 :: t := by
            rw [e2, List.append_assoc, ← hlen, List.drop_left]
          have : matchHashes (s.drop (k + 1)) 6 = some (hs, t) := by
            rw [matchHashes_eq]
            exact ⟨c2, hd, g1, g2, g3, g4, g5⟩
          rw [this] at hr
          cases hr
    · rename_i hc
      constructor
      · intro e
        obtain ⟨ws, c, e, h0, rest⟩ := ih.1 e
        exact ⟨ws, c, e, by omega, rest⟩
      · rintro ⟨ws, c2, e2, h0, hw, g1, g2, g3, g4, g5⟩
        apply ih.2
        refine ⟨ws, c2, e2, ?_, hw, g1, g2, g3, g4, g5⟩
        by_contra hne
        have hlen : ws.length = k + 1 := by omega
        apply hc
        have ht : s.take (k + 1) = ws := by
          rw [e2, List.append_assoc, ← hlen, List.take_left]
        rw [ht]
        exact ⟨hlen, by simpa only [List.all_eq_true] using hw⟩

/-- What `titleRegex` matches: up to two blanks, one to six markers, one blank, and a rest
without newline; the submatches are the markers and the rest. -/
theorem titleRegex_eq (line hs t : List Char) :
    titleRegex line = some (hs, t) ↔
      ∃ ws c, line = ws ++ hs ++ c :: t ∧ ws.length ≤ 2 ∧ (∀ w ∈ ws, isSpace w = true) ∧
        1 ≤ hs.length ∧ hs.length ≤ 6 ∧ (∀ h ∈ hs, h = '#') ∧
        isSpace c = true ∧ ∀ x ∈ t, x ≠ '\n' :=
  matchBlanks_eq line 2 hs t

/-! ## The slug -/

/-- The class `\s` holds whitespace characters only. -/
theorem isUnicodeSpace_of_isSpace (c : Char) (h : isSpace c = true) :
    isUnicodeSpace c = true := by
  simp only [isSpace, Bool.or_eq_true, beq_iff_eq] at h
  rcases h with (((h | h) | h) | h) | h <;> subst h <;> decide

theorem replaceRuns_clean (b : Bool) (s : List Char) :
    ∀ c ∈ replaceRuns b s, whitespacesClass c = false := by
  induction s generalizing b with
  | nil => simp [replaceRuns]
  | cons x xs ih =>
    intro c hc
    simp only [replaceRuns] at hc
    split at hc
    · split at hc
      · exact ih true c hc
      · rcases List.mem_cons.mp hc with rfl | h
        · decide
        · exact ih true c h
    · rename_i hx
      rcases List.mem_cons.mp hc with rfl | h
      · simpa using hx
      · exact ih false c h

/-! ### Reading the heap after one more node -/

theorem pcode_eq_of_parent {h h1 : Heap} {i : Nat}
    (e : (h1[i]?).map ArticleTOC.Parent = (h[i]?).map ArticleTOC.Parent) :
    pcode h1 i = pcode h i := by
  unfold pcode
  cases h1i : h1[i]? <;> cases hi : h[i]? <;> simp [h1i, hi] at e ⊢
  rw [e]

theorem pcode_ge_length (h : Heap) (i : Nat) (hi : h.length ≤ i) : pcode h i = 0 := by
  unfold pcode
  rw [List.getElem?_eq_none hi]

/-- Codes after storing `nn` at the first free address, the older nodes keeping `Parent`. -/
theorem pcode_push (h h1 : Heap) (nn : ArticleTOC) (hl : h1.length = h.length)
    (hp : ∀ i : Nat, (h1[i]?).map ArticleTOC.Parent = (h[i]?).map ArticleTOC.Parent)
    (i : Nat) :
    pcode (h1 ++ [nn]) i =
      if i = h.length then (match nn.Parent with | none => 0 | some p => p + 1)
      else pcode h i := by
  split
  · rename_i e
    subst e
    unfold pcode
    rw [List.getElem?_append_right (by omega)]
    simp [hl]
  · rename_i ne
    rcases Nat.lt_or_ge i h.length with lt | ge
    · apply pcode_eq_of_parent
      rw [List.getElem?_append_left (by omega)]
      exact hp i
    · rw [pcode_ge_length h i ge, pcode_ge_length]
      simp
      omega

theorem kids_push (h h1 : Heap) (nn : ArticleTOC) (hl : h1.length = h.length)
    (hp : ∀ i : Nat, (h1[i]?).map ArticleTOC.Parent = (h[i]?).map ArticleTOC.Parent)
    (x : Nat) :
    kids (h1 ++ [nn]) x =
      kids h x ++
        (if (match nn.Parent with | none => 0 | some p => p + 1) = x then [h.length]
         else []) := by
  unfold kids
  rw [List.length_append, List.length_singleton, hl, List.range_succ, List.filter_append]
  congr 1
  · apply List.filter_congr
    intro j hj
    rw [pcode_push h h1 nn hl hp j]
    have : j ≠ h.length := by
      have := List.mem_range.mp hj
      omega
    simp [this]
  · rw [List.filter_singleton, pcode_push h h1 nn hl hp]
    simp

theorem getElem?_set_subs (h : Heap) (a : Nat) (pn : ArticleTOC) (ha : h[a]? = some pn)
    (subs : List Nat) (i : Nat) :
    (h.set a { pn with SubTitles := subs })[i]? =
      if i = a then some { pn with SubTitles := subs } else h[i]? := by
  have hlt : a < h.length := by
    rcases Nat.lt_or_ge a h.length with lt | ge
    · exact lt
    · rw [List.getElem?_eq_none ge] at ha
      cases ha
  rw [List.getElem?_set]
  by_cases e : a = i
  · subst e
    simp [hlt]
  · have : ¬ i = a := fun e2 => e e2.symm
    simp [e, this]

theorem set_subs_parent (h : Heap) (a : Nat) (pn : ArticleTOC) (ha : h[a]? = some pn)
    (subs : List Nat) (i : Nat) :
    ((h.set a { pn with SubTitles := subs })[i]?).map ArticleTOC.Parent =
      (h[i]?).map ArticleTOC.Parent := by
  rw [getElem?_set_subs h a pn ha]
  split
  · rename_i e
    subst e
    rw [ha]
    rfl
  · rfl

theorem pcode_pos_lt (h : Heap) (i b : Nat) (e : pcode h i = b + 1) : i < h.length := by
  rcases Nat.lt_or_ge i h.length with lt | ge
  · exact lt
  · rw [pcode_ge_length h i ge] at e
    omega

theorem pcode_of_getElem? (h : Heap) (i : Nat) (nd : ArticleTOC) (e : h[i]? = some nd) :
    pcode h i = match nd.Parent with | none => 0 | some p => p + 1 := by
  unfold pcode
  rw [e]

/-- An ancestor has a smaller address, and every node between it and the start has its
parent at or after the ancestor. -/
theorem anc_bound {s : GenState} (wf : WF s) {c a : Nat} (h : Anc s.heap c a) :
    a ≤ c ∧ ∀ j, a < j → j ≤ c → a + 1 ≤ pcode s.heap j := by
  induction h with
  | self c => exact ⟨Nat.le_refl c, fun j h1 h2 => by omega⟩
  | up c b a e _ ih =>
    obtain ⟨hab, hj⟩ := ih
    have hbc : b + 1 ≤ c := by
      have := wf.par c
      omega
    refine ⟨by omega, fun j h1 h2 => ?_⟩
    rcases Nat.lt_or_ge b j with lt | ge
    · rcases Nat.lt_or_ge j c with lt2 | ge2
      · have := wf.nc c j (by omega) lt2
        omega
      · have : j = c := by omega
        subst this
        omega
    · exact hj j h1 ge

theorem kids_above (s : GenState) (wf : WF s) (x : Nat) (hx : s.heap.length ≤ x) :
    kids s.heap x = if x = 0 then List.range s.heap.length else [] := by
  unfold kids
  split
  · rename_i e
    subst e
    have : s.heap.length = 0 := by omega
    simp [this]
  · rename_i ne
    rw [List.filter_eq_nil_iff]
    intro j hj
    have h1 := List.mem_range.mp hj
    have h2 := wf.par j
    simp only [beq_iff_eq]
    omega

theorem wf_appendRoot (s : GenState) (wf : WF s) (toc : ArticleTOC)
    (hp : toc.Parent = none) (hsub : toc.SubTitles = []) (hsl : toc.ShowLevel = 2) :
    WF (appendRoot s toc) := by
  have hpc := pcode_push s.heap s.heap toc rfl (fun _ => rfl)
  have hkd := kids_push s.heap s.heap toc rfl (fun _ => rfl)
  simp only [hp] at hpc hkd
  constructor
  · simp [appendRoot]
  · intro i
    simp only [appendRoot]
    rw [hpc]
    split
    · omega
    · exact wf.par i
  · intro p nd e
    simp only [appendRoot] at e ⊢
    rw [hkd]
    simp only [Nat.add_one_ne_zero, if_false, List.append_nil, not_false_eq_true,
      Nat.succ_ne_zero, (Nat.succ_ne_zero p).symm]
    rcases Nat.lt_or_ge p s.heap.length with lt | ge
    · rw [List.getElem?_append_left lt] at e
      rw [wf.subs p nd e]
    · rw [List.getElem?_append_right ge] at e
      have hp0 : p - s.heap.length = 0 := by
        by_contra hne
        obtain ⟨m, hm⟩ : ∃ m, p - s.heap.length = m + 1 := ⟨p - s.heap.length - 1, by omega⟩
        rw [hm] at e
        simp at e
      rw [hp0] at e
      simp at e
      subst e
      rw [hsub, kids_above s wf (p + 1) (by omega)]
      simp
  · simp only [appendRoot]
    rw [hkd, wf.toc]
    simp
  · intro i j h1 h2
    simp only [appendRoot] at h1 ⊢
    rw [hpc] at h1 ⊢
    rw [hpc]
    by_cases ei : i = s.heap.length
    · simp [ei]
    · simp only [ei, if_false] at h1 ⊢
      rcases Nat.lt_or_ge i s.heap.length with hi | hi
      · have : j ≠ s.heap.length := by omega
        simp only [this, if_false]
        exact wf.nc i j h1 h2
      · rw [pcode_ge_length s.heap i hi]
        exact Nat.zero_le _
  · intro i nd e hpn
    simp only [appendRoot] at e
    rcases Nat.lt_or_ge i s.heap.length with lt | ge
    · rw [List.getElem?_append_left lt] at e
      exact wf.root i nd e hpn
    · rw [List.getElem?_append_right ge] at e
      have : nd = toc := by
        cases hm : i - s.heap.length with
        | zero =>
          rw [hm] at e
          simpa using e.symm
        | succ m =>
          rw [hm] at e
          simp at e
      rw [this]
      exact hsl

theorem getElem?_of_lt (h : Heap) (a : Nat) (ha : a < h.length) : ∃ pn, h[a]? = some pn :=
  ⟨h[a], List.getElem?_eq_getElem ha⟩

theorem wf_attach (s : GenState) (wf : WF s) (toc : ArticleTOC) (a : Nat) (sh : Int)
    (hpos : 0 < s.heap.length) (hanc : Anc s.heap (s.heap.length - 1) a)
    (hsub : toc.SubTitles = []) :
    ∃ s1, attach s toc a sh = some s1 ∧ WF s1 := by
  obtain ⟨hle, hbetween⟩ := anc_bound wf hanc
  obtain ⟨pn, ha⟩ := getElem?_of_lt s.heap a (by omega)
  have hset := fun i => getElem?_set_subs s.heap a pn ha (pn.SubTitles ++ [s.heap.length]) i
  have hlen : (s.heap.set a { pn with SubTitles := pn.SubTitles ++ [s.heap.length] }).length =
      s.heap.length := List.length_set _ _ _
  have hpar := fun i =>
    set_subs_parent s.heap a pn ha (pn.SubTitles ++ [s.heap.length]) i
  have hpc := pcode_push s.heap _ { toc with Parent := some a, ShowLevel := sh } hlen hpar
  have hkd := kids_push s.heap _ { toc with Parent := some a, ShowLevel := sh } hlen hpar
  simp only at hpc hkd
  refine ⟨{ heap := s.heap.set a { pn with SubTitles := pn.SubTitles ++ [s.heap.length] } ++
              [{ toc with Parent := some a, ShowLevel := sh }]
            Toc := s.Toc
            currentToc := some s.heap.length }, by simp only [attach, ha], ?_⟩
  constructor
  · simp
  · intro i
    simp only
    rw [hpc]
    split
    · omega
    · exact wf.par i
  · intro p nd e
    simp only at e ⊢
    rw [hkd]
    rcases Nat.lt_or_ge p s.heap.length with lt | ge
    · rw [List.getElem?_append_left (by omega), hset] at e
      by_cases epa : p = a
      · subst epa
        simp only [if_true, Option.some.injEq] at e
        subst e
        simp only [if_true]
        rw [wf.subs p pn ha]
      · simp only [epa, if_false] at e
        have : ¬ a + 1 = p + 1 := by omega
        simp only [this, if_false, List.append_nil]
        exact wf.subs p nd e
    · rw [List.getElem?_append_right (by omega), hlen] at e
      have hnd : nd = { toc with Parent := some a, ShowLevel := sh } := by
        cases hm : p - s.heap.length with
        | zero =>
          rw [hm] at e
          simpa using e.symm
        | succ m =>
          rw [hm] at e
          simp at e
      rw [hnd]
      simp only
      have : ¬ a + 1 = p + 1 := by omega
      rw [hsub, kids_above s wf (p + 1) (by omega)]
      simp [this]
  · simp only
    rw [hkd, wf.toc]
    simp
  · intro i j h1 h2
    simp only at h1 ⊢
    rw [hpc] at h1 ⊢
    rw [hpc]
    by_cases ei : i = s.heap.length
    · simp only [ei, if_true] at h1 ⊢
      have : j ≠ s.heap.length := by omega
      simp only [this, if_false]
      exact hbetween j (by omega) (by omega)
    · simp only [ei, if_false] at h1 ⊢
      rcases Nat.lt_or_ge i s.heap.length with hi | hi
      · have : j ≠ s.heap.length := by omega
        simp only [this, if_false]
        exact wf.nc i j h1 h2
      · rw [pcode_ge_length s.heap i hi]
        exact Nat.zero_le _
  · intro i nd e hpn
    simp only at e
    rcases Nat.lt_or_ge i s.heap.length with lt | ge
    · rw [List.getElem?_append_left (by omega), hset] at e
      by_cases eia : i = a
      · subst eia
        simp only [if_true, Option.some.injEq] at e
        subst e
        exact wf.root i pn ha hpn
      · simp only [eia, if_false] at e
        exact wf.root i nd e hpn
    · rw [List.getElem?_append_right (by omega), hlen] at e
      have hnd : nd = { toc with Parent := some a, ShowLevel := sh } := by
        cases hm : i - s.heap.length with
        | zero =>
          rw [hm] at e
          simpa using e.symm
        | succ m =>
          rw [hm] at e
          simp at e
      rw [hnd] at hpn
      simp at hpn

/-- The ascending loop never dereferences `nil`, and what it returns is `nil` or an
ancestor of the node it started from. -/
theorem walkUp_anc (s : GenState) (wf : WF s) (lvl : Int) (k : Nat) :
    ∀ c, c < s.heap.length →
      ∃ r, walkUp s.heap lvl k (some c) = some r ∧ ∀ a, r = some a → Anc s.heap c a := by
  induction k with
  | zero =>
    intro c _
    refine ⟨some c, rfl, fun a e => ?_⟩
    cases e
    exact Anc.self c
  | succ k ih =>
    intro c hc
    obtain ⟨pn, hpn⟩ := getElem?_of_lt s.heap c hc
    simp only [walkUp, deref, hpn]
    cases hq : pn.Parent with
    | none => exact ⟨none, rfl, fun a e => by cases e⟩
    | some q =>
      have hpc : pcode s.heap c = q + 1 := by
        rw [pcode_of_getElem? s.heap c pn hpn, hq]
      have hqc : q < c := by
        have := wf.par c
        omega
      obtain ⟨qn, hqn⟩ := getElem?_of_lt s.heap q (by omega)
      simp only [hqn]
      split
      · refine ⟨some q, rfl, fun a e => ?_⟩
        cases e
        exact Anc.up c q q hpc (Anc.self q)
      · obtain ⟨r, hr, hanc⟩ := ih q (by omega)
        exact ⟨r, hr, fun a e => Anc.up c q a hpc (hanc a e)⟩

theorem newToc_parent (m1 m2 : List Char) : (newToc m1 m2).Parent = none := rfl

theorem newToc_subs (m1 m2 : List Char) : (newToc m1 m2).SubTitles = [] := rfl

theorem newToc_showLevel (m1 m2 : List Char) : (newToc m1 m2).ShowLevel = 2 := rfl

/-- One heading keeps the invariant, and its processing never fails. -/
theorem addHeading_wf (s : GenState) (wf : WF s) (m1 m2 : List Char) :
    ∃ s1, addHeading s m1 m2 = some s1 ∧ WF s1 := by
  have hroot : WF (appendRoot s (newToc m1 m2)) :=
    wf_appendRoot s wf _ (newToc_parent m1 m2) (newToc_subs m1 m2) (newToc_showLevel m1 m2)
  unfold addHeading
  simp only
  cases hcur : s.currentToc with
  | none => exact ⟨_, rfl, hroot⟩
  | some cur =>
    have hc := wf.cur
    rw [hcur] at hc
    split at hc
    · cases hc
    · rename_i hne
      have hpos : 0 < s.heap.length := by omega
      have hcur2 : cur = s.heap.length - 1 := by
        simpa using hc
      obtain ⟨c, hcn⟩ := getElem?_of_lt s.heap cur (by omega)
      simp only [hcn]
      split
      · obtain ⟨r, hr, hanc⟩ := walkUp_anc s wf (newToc m1 m2).Level
          (Int.toNat (c.Level - (newToc m1 m2).Level + 1)) cur (by omega)
        rw [hr]
        cases r with
        | none => exact ⟨_, rfl, hroot⟩
        | some p =>
          have ha := hanc p rfl
          rw [hcur2] at ha
          have hp : p < s.heap.length := by
            have := (anc_bound wf ha).1
            omega
          obtain ⟨pn, hpn⟩ := getElem?_of_lt s.heap p hp
          simp only [hpn]
          exact wf_attach s wf _ p _ hpos ha (newToc_subs m1 m2)
      · split
        · cases hgp : c.Parent with
          | none => exact ⟨_, rfl, hroot⟩
          | some gp =>
            simp only
            have hpc : pcode s.heap cur = gp + 1 := by
              rw [pcode_of_getElem? s.heap cur c hcn, hgp]
            have ha : Anc s.heap (s.heap.length - 1) gp := by
              rw [← hcur2]
              exact Anc.up cur gp gp hpc (Anc.self gp)
            exact wf_attach s wf _ gp _ hpos ha (newToc_subs m1 m2)
        · have ha : Anc s.heap (s.heap.length - 1) cur := by
            rw [← hcur2]
            exact Anc.self cur
          exact wf_attach s wf _ cur _ hpos ha (newToc_subs m1 m2)

theorem map_lineData_set (h : Heap) (a : Nat) (pn : ArticleTOC) (ha : h[a]? = some pn)
    (subs : List Nat) :
    (h.set a { pn with SubTitles := subs }).map lineData = h.map lineData := by
  apply List.ext_getElem?
  intro i
  rw [List.getElem?_map, List.getElem?_map, getElem?_set_subs h a pn ha]
  split
  · rename_i e
    subst e
    rw [ha]
    rfl
  · rfl

theorem attach_data (s s1 : GenState) (toc : ArticleTOC) (a : Nat) (sh : Int)
    (e : attach s toc a sh = some s1) :
    s1.heap.map lineData = s.heap.map lineData ++ [lineData toc] := by
  unfold attach at e
  cases ha : s.heap[a]? with
  | none =>
    rw [ha] at e
    cases e
  | some pn =>
    rw [ha] at e
    simp only [Option.some.injEq] at e
    subst e
    simp only [List.map_append, map_lineData_set s.heap a pn ha]
    rfl

theorem appendRoot_data (s : GenState) (toc : ArticleTOC) :
    (appendRoot s toc).heap.map lineData = s.heap.map lineData ++ [lineData toc] := by
  simp [appendRoot]

/-- One heading stores one node, whose `Level`, `Title` and `Slug` come from the line; the
older nodes keep theirs. -/
theorem addHeading_data (s s1 : GenState) (m1 m2 : List Char)
    (e : addHeading s m1 m2 = some s1) :
    s1.heap.map lineData = s.heap.map lineData ++ [headingData (m1, m2)] := by
  have hd : lineData (newToc m1 m2) = headingData (m1, m2) := rfl
  rw [← hd]
  unfold addHeading at e
  simp only at e
  split at e
  · cases e
    exact appendRoot_data s _
  · split at e
    · cases e
    · split at e
      · split at e
        · cases e
        · cases e
          exact appendRoot_data s _
        · split at e
          · cases e
          · exact attach_data s s1 _ _ _ e
      · split at e
        · split at e
          · cases e
            exact appendRoot_data s _
          · exact attach_data s s1 _ _ _ e
        · exact attach_data s s1 _ _ _ e

/-! ### Pre-order of a heap whose parents nest -/

/-- No child of `x` has an address below `x`. -/
theorem kids_eq_filter_Ico (h : Heap) (hpar : ∀ i : Nat, pcode h i ≤ i) (x : Nat) :
    kids h x = (List.Ico x h.length).filter (fun j => pcode h j == x) := by
  unfold kids
  rw [← List.Ico.zero_bot]
  rcases Nat.lt_or_ge h.length x with lt | ge
  · rw [List.Ico.eq_nil_of_le (Nat.le_of_lt lt), List.filter_nil, List.filter_eq_nil_iff]
    intro j hj
    have h1 := (List.Ico.mem.mp hj).2
    have h2 := hpar j
    simp only [beq_iff_eq]
    omega
  · rw [← List.Ico.append_consecutive (Nat.zero_le x) ge, List.filter_append]
    have : (List.Ico 0 x).filter (fun j => pcode h j == x) = [] := by
      rw [List.filter_eq_nil_iff]
      intro j hj
      have h1 := (List.Ico.mem.mp hj).2
      have h2 := hpar j
      simp only [beq_iff_eq]
      omega
    rw [this, List.nil_append]

/-- The walk over the children of `x` found from address `a` on, given the walk one level
further down (`hd`). -/
theorem walk_children (h : Heap)
    (hnc : ∀ i j : Nat, pcode h i ≤ j → j < i → pcode h i ≤ pcode h j)
    (d x : Nat) (hx : h.length - x ≤ d + 1)
    (hd : ∀ y, y ≤ h.length → h.length - y ≤ d →
      ∃ e, y ≤ e ∧ e ≤ h.length ∧ preorder h d (kids h y) = List.Ico y e ∧
        (∀ j, y ≤ j → j < e → y ≤ pcode h j) ∧ (e < h.length → pcode h e < y)) :
    ∀ m a, h.length - a ≤ m → x ≤ a → a ≤ h.length →
      (∀ j, x ≤ j → j < a → x ≤ pcode h j) → (a < h.length → pcode h a ≤ x) →
      ∃ e, a ≤ e ∧ e ≤ h.length ∧
        (((List.Ico a h.length).filter (fun j => pcode h j == x)).flatMap
          (fun p => p :: preorder h d (kids h (p + 1)))) = List.Ico a e ∧
        (∀ j, x ≤ j → j < e → x ≤ pcode h j) ∧ (e < h.length → pcode h e < x) := by
  intro m
  induction m with
  | zero =>
    intro a hm _ han hbelow _
    have : a = h.length := by omega
    subst this
    refine ⟨h.length, Nat.le_refl _, Nat.le_refl _, ?_, hbelow, fun hlt => by omega⟩
    simp
  | succ m ih =>
    intro a hm hxa han hbelow hat
    rcases Nat.eq_or_lt_of_le han with heq | hlt
    · subst heq
      refine ⟨h.length, Nat.le_refl _, Nat.le_refl _, ?_, hbelow, fun hlt => by omega⟩
      simp
    · have hle := hat hlt
      rcases Nat.eq_or_lt_of_le hle with hpa | hpa
      · -- `a` is a child of `x`: walk its subtree, then go on after it
        obtain ⟨e1, h1, h2, h3, h4, h5⟩ := hd (a + 1) hlt (by omega)
        have hbelow1 : ∀ j, x ≤ j → j < e1 → x ≤ pcode h j := by
          intro j hj1 hj2
          rcases Nat.lt_trichotomy j a with lt | eq | gt
          · exact hbelow j hj1 lt
          · subst eq
            omega
          · have := h4 j gt hj2
            omega
        have hat1 : e1 < h.length → pcode h e1 ≤ x := by
          intro hlt1
          have h6 := h5 hlt1
          by_contra hgt
          have := hnc e1 a (by omega) (by omega)
          omega
        obtain ⟨e, g1, g2, g3, g4, g5⟩ := ih e1 (by omega) (by omega) h2 hbelow1 hat1
        refine ⟨e, by omega, g2, ?_, g4, g5⟩
        have hsplit : (List.Ico a h.length).filter (fun j => pcode h j == x) =
            a :: (List.Ico e1 h.length).filter (fun j => pcode h j == x) := by
          rw [List.Ico.eq_cons hlt, List.filter_cons_of_pos (by simpa using hpa),
            ← List.Ico.append_consecutive h1 h2, List.filter_append]
          have : (List.Ico (a + 1) e1).filter (fun j => pcode h j == x) = [] := by
            rw [List.filter_eq_nil_iff]
            intro j hj
            have hj1 := List.Ico.mem.mp hj
            have := h4 j hj1.1 hj1.2
            simp only [beq_iff_eq]
            omega
          rw [this, List.nil_append]
        rw [hsplit, List.flatMap_cons, g3, h3, ← List.Ico.eq_cons (by omega),
          List.Ico.append_consecutive (by omega) g1]
      · -- `a` lies outside the subtree of `x`, and so does everything after it
        refine ⟨a, Nat.le_refl _, han, ?_, hbelow, fun _ => hpa⟩
        have : (List.Ico a h.length).filter (fun j => pcode h j == x) = [] := by
          rw [List.filter_eq_nil_iff]
          intro j hj
          have hj1 := List.Ico.mem.mp hj
          simp only [beq_iff_eq]
          intro hjx
          rcases Nat.eq_or_lt_of_le hj1.1 with eq | lt
          · subst eq
            omega
          · have := hnc j a (by omega) lt
            omega
        rw [this]
        simp

/-- The walk from the children of `x`, deep enough, lists one interval of addresses. -/
theorem walk_kids (h : Heap) (hpar : ∀ i : Nat, pcode h i ≤ i)
    (hnc : ∀ i j : Nat, pcode h i ≤ j → j < i → pcode h i ≤ pcode h j)
    (hsubs : ∀ p : Nat, subsOf h p = kids h (p + 1)) (d : Nat) :
    ∀ x, x ≤ h.length → h.length - x ≤ d →
      ∃ e, x ≤ e ∧ e ≤ h.length ∧ preorder h d (kids h x) = List.Ico x e ∧
        (∀ j, x ≤ j → j < e → x ≤ pcode h j) ∧ (e < h.length → pcode h e < x) := by
  induction d with
  | zero =>
    intro x hx hd
    have : x = h.length := by omega
    subst this
    exact ⟨h.length, Nat.le_refl _, Nat.le_refl _, by simp [preorder],
      fun j h1 h2 => by omega, fun hlt => by omega⟩
  | succ d ih =>
    intro x hx hd
    have key := walk_children h hnc d x hd ih (h.length - x) x (Nat.le_refl _)
      (Nat.le_refl _) hx (fun j h1 h2 => by omega) (fun _ => hpar x)
    obtain ⟨e, h1, h2, h3, h4, h5⟩ := key
    refine ⟨e, h1, h2, ?_, h4, h5⟩
    rw [← h3, ← kids_eq_filter_Ico h hpar x]
    simp only [preorder, hsubs]

theorem subsOf_eq_kids (s : GenState) (wf : WF s) (p : Nat) :
    subsOf s.heap p = kids s.heap (p + 1) := by
  unfold subsOf
  cases hp : s.heap[p]? with
  | none =>
    simp only
    have : s.heap.length ≤ p := by
      by_contra hlt
      obtain ⟨nd, hnd⟩ := getElem?_of_lt s.heap p (by omega)
      rw [hnd] at hp
      cases hp
    rw [kids_above s wf (p + 1) (by omega)]
    simp
  | some nd => exact wf.subs p nd hp

/-- In a state of the loop, the pre-order walk from `Toc` visits the nodes in the order
in which they were allocated, each exactly once. -/
theorem preorder_wf (s : GenState) (wf : WF s) (d : Nat) (hd : s.heap.length ≤ d) :
    preorder s.heap d s.Toc = List.range s.heap.length := by
  obtain ⟨e, _, h2, h3, _, h5⟩ :=
    walk_kids s.heap wf.par wf.nc (subsOf_eq_kids s wf) d 0 (Nat.zero_le _) (by omega)
  have : e = s.heap.length := by
    rcases Nat.eq_or_lt_of_le h2 with eq | lt
    · exact eq
    · have := h5 lt
      omega
  rw [wf.toc, h3, this, List.Ico.zero_bot]

/-! ### The whole loop -/

theorem wf_init : WF { heap := [], Toc := [], currentToc := none } := by
  constructor
  · rfl
  · intro i
    exact Nat.zero_le _
  · intro p nd e
    simp at e
  · rfl
  · intro i j _ _
    exact Nat.zero_le _
  · intro i nd e
    simp at e

/-- The loop never fails from a state satisfying the invariant; it keeps the invariant and
stores one node per heading line, in order. -/
theorem genLoop_wf (lines : List (List Char)) :
    ∀ s, WF s →
      ∃ s1, genLoop s lines = some s1 ∧ WF s1 ∧
        s1.heap.map lineData =
          s.heap.map lineData ++ (lines.filterMap titleRegex).map headingData := by
  induction lines with
  | nil =>
    intro s wf
    exact ⟨s, rfl, wf, by simp⟩
  | cons line rest ih =>
    intro s wf
    simp only [genLoop, loopBody]
    cases hm : titleRegex line with
    | none =>
      obtain ⟨s1, h1, h2, h3⟩ := ih s wf
      refine ⟨s1, by simpa using h1, h2, ?_⟩
      rw [h3, List.filterMap_cons_none hm]
    | some m =>
      obtain ⟨m1, m2⟩ := m
      obtain ⟨s0, e0, wf0⟩ := addHeading_wf s wf m1 m2
      have d0 := addHeading_data s s0 m1 m2 e0
      obtain ⟨s1, h1, h2, h3⟩ := ih s0 wf0
      refine ⟨s1, by simpa [e0] using h1, h2, ?_⟩
      rw [h3, d0, List.filterMap_cons_some hm]
      simp

/-- The loop of `GenTOC` started in an empty memory with an empty `Toc`. -/
theorem genLoop_fresh (content : List Char) :
    ∃ s, genLoop { heap := [], Toc := [], currentToc := none } (splitLines content) = some s ∧
      WF s ∧ s.heap.map lineData = (headingLines content).map headingData := by
  obtain ⟨s1, h1, h2, h3⟩ := genLoop_wf (splitLines content) _ wf_init
  exact ⟨s1, h1, h2, by simpa [headingLines] using h3⟩

/-- The run of `GenTOC` in an empty memory on an article with an empty `Toc`. -/
theorem GenTOC_fresh (content : List Char) :
    ∃ s, GenTOC [] { Content := content, Toc := [] } =
        some (s.heap, { Content := content, Toc := s.Toc }) ∧
      WF s ∧ s.heap.map lineData = (headingLines content).map headingData := by
  obtain ⟨s1, h1, h2, h3⟩ := genLoop_fresh content
  refine ⟨s1, ?_, h2, h3⟩
  simp only [GenTOC, h1]

theorem map_getElem?_range {α : Type} (l : List α) :
    (List.range l.length).map (fun i => l[i]?) = l.map some := by
  apply List.ext_getElem?
  intro i
  rcases Nat.lt_or_ge i l.length with lt | ge
  · rw [List.getElem?_map, List.getElem?_map, List.getElem?_range lt]
    simp [List.getElem?_eq_getElem lt]
  · rw [List.getElem?_eq_none (by simpa using ge), List.getElem?_eq_none (by simpa using ge)]

theorem takeWhile_dropWhile_stop {α : Type} (p : α → Bool) (l1 l2 : List α) (x : α)
    (h1 : ∀ a ∈ l1, p a = true) (hx : p x = false) :
    (l1 ++ x :: l2).takeWhile p = l1 ∧ (l1 ++ x :: l2).dropWhile p = x :: l2 := by
  induction l1 with
  | nil => simp [List.takeWhile, List.dropWhile, hx]
  | cons a l ih =>
    have ha : p a = true := h1 a (by simp)
    have := ih (fun b hb => h1 b (by simp [hb]))
    simp [List.takeWhile, List.dropWhile, ha, this.1, this.2]

/-- The three parts of a line that `titleRegex` matches. -/
theorem parts_of_match (line hs t : List Char) (e : titleRegex line = some (hs, t)) :
    (beforeRun line).length ≤ 2 ∧ markerRun line = hs ∧ 1 ≤ hs.length ∧ hs.length ≤ 6 ∧
      ∃ c, afterRun line = c :: t ∧ isSpace c = true := by
  obtain ⟨ws, c, e1, h0, hw, h1, h2, h3, h4, -⟩ := (titleRegex_eq line hs t).1 e
  obtain ⟨x, hs2, rfl⟩ : ∃ x hs2, hs = x :: hs2 := by
    cases hs with
    | nil => simp at h1
    | cons x hs2 => exact ⟨x, hs2, rfl⟩
  have hx : x = '#' := h3 x (by simp)
  have hcne : (c == '#') = false := by
    cases hc : (c == '#') with
    | false => rfl
    | true =>
      have : c = '#' := by simpa using hc
      rw [this] at h4
      exact absurd h4 (by decide)
  have hws : ∀ a ∈ ws, (a != '#') = true := by
    intro a ha
    have hsp := hw a ha
    cases hc : (a != '#') with
    | true => rfl
    | false =>
      have : a = '#' := by simpa using hc
      rw [this] at hsp
      exact absurd hsp (by decide)
  have hsplit := takeWhile_dropWhile_stop (fun c => c != '#') ws (hs2 ++ c :: t) x hws
    (by simp [hx])
  have hrun := takeWhile_dropWhile_stop (fun c => c == '#') (x :: hs2) t c
    (fun a ha => by simpa using h3 a ha) hcne
  have eline : line = ws ++ x :: (hs2 ++ c :: t) := by
    rw [e1]
    simp
  have erun : x :: (hs2 ++ c :: t) = (x :: hs2) ++ c :: t := by simp
  refine ⟨?_, ?_, h1, h2, c, ?_, h4⟩
  · unfold beforeRun
    rw [eline, hsplit.1]
    exact h0
  · unfold markerRun
    rw [eline, hsplit.2, erun, hrun.1]
  · unfold afterRun
    rw [eline, hsplit.2, erun, hrun.2]

theorem loopBody_none (s : GenState) (line : List Char) (e : titleRegex line = none) :
    loopBody s line = some s := by
  simp only [loopBody, e]

theorem getElem?_shift (h0 h : Heap) (p : Nat) :
    (h0 ++ h.map (shiftToc h0.length))[p + h0.length]? =
      (h[p]?).map (shiftToc h0.length) := by
  rw [List.getElem?_append_right (by omega), Nat.add_sub_cancel, List.getElem?_map]

theorem shiftToc_newToc (k : Nat) (m1 m2 : List Char) :
    shiftToc k (newToc m1 m2) = newToc m1 m2 := rfl

theorem walkUp_shift (h0 h : Heap) (lvl : Int) (n : Nat) :
    ∀ c, walkUp (h0 ++ h.map (shiftToc h0.length)) lvl n (some (c + h0.length)) =
      (walkUp h lvl n (some c)).map (Option.map (fun p => p + h0.length)) := by
  induction n with
  | zero =>
    intro c
    rfl
  | succ n ih =>
    intro c
    simp only [walkUp, deref, getElem?_shift]
    cases hc : h[c]? with
    | none => rfl
    | some pn =>
      simp only [Option.map_some']
      cases hq : pn.Parent with
      | none => simp [shiftToc, hq]
      | some q =>
        simp only [shiftToc, hq, Option.map_some', getElem?_shift]
        cases hqn : h[q]? with
        | none => rfl
        | some qn =>
          have hlv : (shiftToc h0.length qn).Level = qn.Level := rfl
          simp only [Option.map_some', hlv]
          split
          · rfl
          · exact ih q

theorem appendRoot_shift (h0 : Heap) (t0 : List Nat) (s : GenState) (toc : ArticleTOC)
    (ht : shiftToc h0.length toc = toc) :
    appendRoot (shiftState h0 t0 s) toc = shiftState h0 t0 (appendRoot s toc) := by
  simp only [appendRoot, shiftState, List.length_append, List.length_map, List.map_append,
    List.map_cons, List.map_nil, ht, List.append_assoc, Option.map_some',
    Nat.add_comm h0.length s.heap.length]

theorem attach_shift (h0 : Heap) (t0 : List Nat) (s : GenState) (toc : ArticleTOC)
    (p : Nat) (sh : Int) (ht : toc.SubTitles = []) :
    attach (shiftState h0 t0 s) toc (p + h0.length) sh =
      (attach s toc p sh).map (shiftState h0 t0) := by
  unfold attach
  have hg : (shiftState h0 t0 s).heap[p + h0.length]? =
      (s.heap[p]?).map (shiftToc h0.length) := getElem?_shift h0 s.heap p
  rw [hg]
  cases hp : s.heap[p]? with
  | none => rfl
  | some pn =>
    simp only [Option.map_some', shiftState, List.length_append, List.length_map,
      Option.some.injEq, GenState.mk.injEq, Nat.add_comm h0.length s.heap.length, and_true,
      true_and]
    rw [List.set_append_right _ _ (by omega), Nat.add_sub_cancel, List.map_append,
      List.map_set, List.append_assoc]
    simp [shiftToc, ht]

/-- One heading processed after an older heap is the same heading processed in an empty
memory, moved. -/
theorem addHeading_shift (h0 : Heap) (t0 : List Nat) (s : GenState) (m1 m2 : List Char) :
    addHeading (shiftState h0 t0 s) m1 m2 =
      (addHeading s m1 m2).map (shiftState h0 t0) := by
  have hroot := appendRoot_shift h0 t0 s (newToc m1 m2) (shiftToc_newToc _ m1 m2)
  have hatt := fun p sh => attach_shift h0 t0 s (newToc m1 m2) p sh (newToc_subs m1 m2)
  unfold addHeading
  simp only
  cases hcur : s.currentToc with
  | none =>
    have : (shiftState h0 t0 s).currentToc = none := by simp [shiftState, hcur]
    simp only [this, hroot, Option.map_some']
  | some cur =>
    have hc : (shiftState h0 t0 s).currentToc = some (cur + h0.length) := by
      simp [shiftState, hcur]
    have hg : ∀ p : Nat, (shiftState h0 t0 s).heap[p + h0.length]? =
        (s.heap[p]?).map (shiftToc h0.length) := fun p => getElem?_shift h0 s.heap p
    simp only [hc, hg]
    cases hcn : s.heap[cur]? with
    | none => rfl
    | some c =>
      have hlv : (shiftToc h0.length c).Level = c.Level := rfl
      have hsl : (shiftToc h0.length c).ShowLevel = c.ShowLevel := rfl
      simp only [Option.map_some', hlv, hsl]
      split
      · have hw : walkUp (shiftState h0 t0 s).heap (newToc m1 m2).Level
            (Int.toNat (c.Level - (newToc m1 m2).Level + 1)) (some (cur + h0.length)) = _ :=
          walkUp_shift h0 s.heap (newToc m1 m2).Level _ cur
        rw [hw]
        cases hr : walkUp s.heap (newToc m1 m2).Level
            (Int.toNat (c.Level - (newToc m1 m2).Level + 1)) (some cur) with
        | none => rfl
        | some r =>
          cases r with
          | none => simp only [Option.map_some', Option.map_none', hroot]
          | some p =>
            simp only [Option.map_some', hg]
            cases hpn : s.heap[p]? with
            | none => rfl
            | some pn =>
              simp only [Option.map_some']
              exact hatt p _
      · split
        · cases hgp : c.Parent with
          | none =>
            have : (shiftToc h0.length c).Parent = none := by simp [shiftToc, hgp]
            simp only [this, hroot, Option.map_some']
          | some gp =>
            have : (shiftToc h0.length c).Parent = some (gp + h0.length) := by
              simp [shiftToc, hgp]
            simp only [this]
            exact hatt gp _
        · exact hatt cur _

theorem genLoop_shift (h0 : Heap) (t0 : List Nat) (lines : List (List Char)) :
    ∀ s, genLoop (shiftState h0 t0 s) lines = (genLoop s lines).map (shiftState h0 t0) := by
  induction lines with
  | nil =>
    intro s
    rfl
  | cons line rest ih =>
    intro s
    simp only [genLoop, loopBody]
    cases hm : titleRegex line with
    | none => exact ih s
    | some m =>
      obtain ⟨m1, m2⟩ := m
      simp only [addHeading_shift]
      cases ha : addHeading s m1 m2 with
      | none => rfl
      | some s1 => exact ih s1

theorem readForest_append (h : Heap) (d : Nat) (ps qs : List Nat) :
    readForest h d (ps ++ qs) = readForest h d ps ++ readForest h d qs := by
  cases d with
  | zero => rfl
  | succ d => simp only [readForest, List.filterMap_append]

/-- The forest read from moved roots in the moved heap is the forest read before. -/
theorem readForest_shift (h0 h : Heap) (d : Nat) :
    ∀ ps : List Nat, readForest (h0 ++ h.map (shiftToc h0.length)) d
        (ps.map (fun p => p + h0.length)) = readForest h d ps := by
  induction d with
  | zero =>
    intro ps
    rfl
  | succ d ih =>
    intro ps
    simp only [readForest, List.filterMap_map]
    apply List.filterMap_congr
    intro p _
    simp only [Function.comp, getElem?_shift]
    cases hp : h[p]? with
    | none => rfl
    | some nd =>
      simp only [Option.map_some', shiftToc]
      rw [ih nd.SubTitles]

/-- Nodes of an older heap that hold no address outside it are read the same after more
nodes were stored behind them. -/
theorem readForest_old (h0 h1 : Heap)
    (hclosed : ∀ nd ∈ h0, ∀ p ∈ nd.SubTitles, p < h0.length) (d : Nat) :
    ∀ ps : List Nat, (∀ p ∈ ps, p < h0.length) →
      readForest (h0 ++ h1) d ps = readForest h0 d ps := by
  induction d with
  | zero =>
    intro ps _
    rfl
  | succ d ih =>
    intro ps hps
    simp only [readForest]
    apply List.filterMap_congr
    intro p hp
    rw [List.getElem?_append_left (hps p hp)]
    cases hnd : h0[p]? with
    | none => rfl
    | some nd =>
      simp only [Option.map_some']
      rw [ih nd.SubTitles (hclosed nd (List.getElem?_mem hnd))]

/-- What `GenTOC` does in a memory `h0` to an article whose `Toc` is `t0`: the nodes it
would build in an empty memory are stored behind `h0`, and their roots behind `t0`. -/
theorem GenTOC_shift (h0 : Heap) (t0 : List Nat) (content : List Char) :
    ∃ s, GenTOC [] { Content := content, Toc := [] } =
        some (s.heap, { Content := content, Toc := s.Toc }) ∧ WF s ∧
      GenTOC h0 { Content := content, Toc := t0 } =
        some (h0 ++ s.heap.map (shiftToc h0.length),
          { Content := content, Toc := t0 ++ s.Toc.map (fun p => p + h0.length) }) := by
  obtain ⟨s, hloop, wf, -⟩ := genLoop_fresh content
  have hinit : ({ heap := h0, Toc := t0, currentToc := none } : GenState) =
      shiftState h0 t0 { heap := [], Toc := [], currentToc := none } := by
    simp [shiftState]
  refine ⟨s, by simp only [GenTOC, hloop], wf, ?_⟩
  unfold GenTOC
  simp only
  rw [hinit, genLoop_shift, hloop]
  rfl

theorem forestOf_eq (content : List Char) (s : GenState)
    (e : GenTOC [] { Content := content, Toc := [] } =
      some (s.heap, { Content := content, Toc := s.Toc })) (d : Nat) :
    forestOf content d = readForest s.heap d s.Toc := by
  simp only [forestOf, e]

theorem kids_lt (h : Heap) (x p : Nat) (hp : p ∈ kids h x) : p < h.length :=
  List.mem_range.mp (List.mem_filter.mp hp).1

/-- One call of `GenTOC` in a memory without dangling addresses: the old roots stay, read
as before, the forest of the content comes behind them, and no address dangles after. -/
theorem GenTOC_appends (h0 : Heap) (t0 : List Nat) (content : List Char)
    (hclosed : ∀ nd ∈ h0, ∀ p ∈ nd.SubTitles, p < h0.length)
    (ht0 : ∀ p ∈ t0, p < h0.length) :
    ∃ h1 r1, GenTOC h0 { Content := content, Toc := t0 } =
        some (h1, { Content := content, Toc := t0 ++ r1 }) ∧
      (∀ d, readForest h1 d (t0 ++ r1) = readForest h0 d t0 ++ forestOf content d) ∧
      (∀ nd ∈ h1, ∀ p ∈ nd.SubTitles, p < h1.length) ∧ ∀ p ∈ t0 ++ r1, p < h1.length := by
  obtain ⟨s, hfresh, wf, hrun⟩ := GenTOC_shift h0 t0 content
  refine ⟨_, _, hrun, fun d => ?_, ?_, ?_⟩
  · rw [readForest_append, readForest_old h0 _ hclosed d t0 ht0, readForest_shift,
      forestOf_eq content s hfresh]
  · intro nd hnd p hp
    rw [List.length_append, List.length_map]
    rcases List.mem_append.mp hnd with hold | hnew
    · have := hclosed nd hold p hp
      omega
    · obtain ⟨nd0, hnd0, rfl⟩ := List.mem_map.mp hnew
      obtain ⟨i, hi⟩ := List.getElem?_of_mem hnd0
      simp only [shiftToc, List.mem_map] at hp
      obtain ⟨p0, hp0, rfl⟩ := hp
      rw [wf.subs i nd0 hi] at hp0
      have := kids_lt s.heap _ p0 hp0
      omega
  · intro p hp
    rw [List.length_append, List.length_map]
    rcases List.mem_append.mp hp with hold | hnew
    · have := ht0 p hold
      omega
    · obtain ⟨p0, hp0, rfl⟩ := List.mem_map.mp hnew
      rw [wf.toc] at hp0
      have := kids_lt s.heap _ p0 hp0
      omega

/-! ### The fields of the nodes after one more heading -/

theorem levelAt_of_getElem? (h : Heap) (i : Nat) (nd : ArticleTOC) (e : h[i]? = some nd) :
    levelAt h i = nd.Level := by
  unfold levelAt
  rw [e]

theorem showAt_of_getElem? (h : Heap) (i : Nat) (nd : ArticleTOC) (e : h[i]? = some nd) :
    showAt h i = nd.ShowLevel := by
  unfold showAt
  rw [e]

/-- The heap after `attach`: the node at `a` with one more child, then the new node. -/
theorem attach_eq (s : GenState) (toc : ArticleTOC) (a : Nat) (sh : Int) (pn : ArticleTOC)
    (ha : s.heap[a]? = some pn) :
    attach s toc a sh =
      some { heap := s.heap.set a { pn with SubTitles := pn.SubTitles ++ [s.heap.length] } ++
               [{ toc with Parent := some a, ShowLevel := sh }]
             Toc := s.Toc
             currentToc := some s.heap.length } := by
  simp only [attach, ha]

theorem getElem?_attach (s s1 : GenState) (toc : ArticleTOC) (a : Nat) (sh : Int)
    (e : attach s toc a sh = some s1) :
    ∃ pn, s.heap[a]? = some pn ∧ s1.Toc = s.Toc ∧ s1.currentToc = some s.heap.length ∧
      s1.heap.length = s.heap.length + 1 ∧
      s1.heap[s.heap.length]? = some { toc with Parent := some a, ShowLevel := sh } ∧
      ∀ i : Nat, i < s.heap.length →
        s1.heap[i]? = if i = a then some { pn with SubTitles := pn.SubTitles ++ [s.heap.length] }
          else s.heap[i]? := by
  cases ha : s.heap[a]? with
  | none =>
    simp only [attach, ha] at e
    cases e
  | some pn =>
    rw [attach_eq s toc a sh pn ha] at e
    simp only [Option.some.injEq] at e
    subst e
    refine ⟨pn, rfl, rfl, rfl, ?_, ?_, fun i hi => ?_⟩
    · simp
    · simp only
      rw [List.getElem?_append_right (by simp)]
      simp
    · simp only
      rw [List.getElem?_append_left (by simpa using hi), getElem?_set_subs s.heap a pn ha]

/-- What `attach` changes in the fields other than `SubTitles`: nothing in the old nodes. -/
theorem attach_at (s s1 : GenState) (toc : ArticleTOC) (a : Nat) (sh : Int)
    (e : attach s toc a sh = some s1) :
    s1.heap.length = s.heap.length + 1 ∧
      (∀ i : Nat, pcode s1.heap i = if i = s.heap.length then a + 1 else pcode s.heap i) ∧
      (∀ i : Nat, levelAt s1.heap i =
        if i = s.heap.length then toc.Level else levelAt s.heap i) ∧
      (∀ i : Nat, showAt s1.heap i = if i = s.heap.length then sh else showAt s.heap i) := by
  obtain ⟨pn, ha, -, -, hlen, hnew, hold⟩ := getElem?_attach s s1 toc a sh e
  have hout : ∀ i : Nat, s.heap.length < i → s1.heap[i]? = none ∧ s.heap[i]? = none := by
    intro i hi
    exact ⟨List.getElem?_eq_none (by omega), List.getElem?_eq_none (by omega)⟩
  have hself : s.heap[s.heap.length]? = none := List.getElem?_eq_none (Nat.le_refl _)
  refine ⟨hlen, fun i => ?_, fun i => ?_, fun i => ?_⟩
  all_goals
    rcases Nat.lt_trichotomy i s.heap.length with lt | eq | gt
    · have h1 := hold i lt
      have ne : i ≠ s.heap.length := by omega
      simp only [ne, if_false]
      by_cases eia : i = a
      · subst eia
        simp only [if_true] at h1
        simp only [pcode, levelAt, showAt, h1, ha]
      · simp only [eia, if_false] at h1
        simp only [pcode, levelAt, showAt, h1]
    · subst eq
      simp only [if_true, pcode, levelAt, showAt, hnew]
    · have ne : i ≠ s.heap.length := by omega
      simp only [ne, if_false, pcode, levelAt, showAt, (hout i gt).1, (hout i gt).2]

/-- What `appendRoot` changes: it adds the new node and leaves the old ones. -/
theorem appendRoot_at (s : GenState) (toc : ArticleTOC) (hp : toc.Parent = none) :
    (appendRoot s toc).heap.length = s.heap.length + 1 ∧
      (∀ i : Nat, pcode (appendRoot s toc).heap i =
        if i = s.heap.length then 0 else pcode s.heap i) ∧
      (∀ i : Nat, levelAt (appendRoot s toc).heap i =
        if i = s.heap.length then toc.Level else levelAt s.heap i) ∧
      (∀ i : Nat, showAt (appendRoot s toc).heap i =
        if i = s.heap.length then toc.ShowLevel else showAt s.heap i) := by
  have hself : s.heap[s.heap.length]? = none := List.getElem?_eq_none (Nat.le_refl _)
  refine ⟨by simp [appendRoot], fun i => ?_, fun i => ?_, fun i => ?_⟩
  all_goals
    simp only [appendRoot]
    rcases Nat.lt_trichotomy i s.heap.length with lt | eq | gt
    · have ne : i ≠ s.heap.length := by omega
      simp only [ne, if_false, pcode, levelAt, showAt, List.getElem?_append_left lt]
    · subst eq
      simp [pcode, levelAt, showAt, hp]
    · have ne : i ≠ s.heap.length := by omega
      have h1 : (s.heap ++ [toc])[i]? = none :=
        List.getElem?_eq_none (by simp; omega)
      have h2 : s.heap[i]? = none := List.getElem?_eq_none (by omega)
      simp only [ne, if_false, pcode, levelAt, showAt, h1, h2]

/-! ### The branches of the loop body -/

theorem newToc_level (m1 m2 : List Char) : (newToc m1 m2).Level = (m1.length : Int) := rfl

theorem addHeading_first (s : GenState) (m1 m2 : List Char) (h : s.currentToc = none) :
    addHeading s m1 m2 = some (appendRoot s (newToc m1 m2)) := by
  simp only [addHeading, h]

theorem addHeading_child (s : GenState) (m1 m2 : List Char) (cur : Nat) (c : ArticleTOC)
    (hc : s.currentToc = some cur) (hn : s.heap[cur]? = some c)
    (hl : c.Level < (m1.length : Int)) :
    addHeading s m1 m2 = attach s (newToc m1 m2) cur (c.ShowLevel + 1) := by
  have h1 : ¬ c.Level > (newToc m1 m2).Level := by
    rw [newToc_level]
    omega
  have h2 : ¬ c.Level = (newToc m1 m2).Level := by
    rw [newToc_level]
    omega
  simp only [addHeading, hc, hn, h1, h2, if_false]

theorem addHeading_sibling_root (s : GenState) (m1 m2 : List Char) (cur : Nat)
    (c : ArticleTOC) (hc : s.currentToc = some cur) (hn : s.heap[cur]? = some c)
    (hl : c.Level = (m1.length : Int)) (hp : c.Parent = none) :
    addHeading s m1 m2 = some (appendRoot s (newToc m1 m2)) := by
  have h1 : ¬ c.Level > (newToc m1 m2).Level := by
    rw [newToc_level]
    omega
  have h2 : c.Level = (newToc m1 m2).Level := by
    rw [newToc_level]
    exact hl
  unfold addHeading
  simp only [hc, hn]
  rw [if_neg h1, if_pos h2]
  simp only [hp]

theorem addHeading_sibling (s : GenState) (m1 m2 : List Char) (cur p : Nat)
    (c : ArticleTOC) (hc : s.currentToc = some cur) (hn : s.heap[cur]? = some c)
    (hl : c.Level = (m1.length : Int)) (hp : c.Parent = some p) :
    addHeading s m1 m2 = attach s (newToc m1 m2) p (c.ShowLevel + 1) := by
  have h1 : ¬ c.Level > (newToc m1 m2).Level := by
    rw [newToc_level]
    omega
  have h2 : c.Level = (newToc m1 m2).Level := by
    rw [newToc_level]
    exact hl
  unfold addHeading
  simp only [hc, hn]
  rw [if_neg h1, if_pos h2]
  simp only [hp]

theorem addHeading_ascend (s : GenState) (m1 m2 : List Char) (cur : Nat) (c : ArticleTOC)
    (hc : s.currentToc = some cur) (hn : s.heap[cur]? = some c)
    (hl : c.Level > (m1.length : Int)) (r : Option Nat)
    (hw : walkUp s.heap (m1.length : Int) (Int.toNat (c.Level - (m1.length : Int) + 1))
      (some cur) = some r) :
    addHeading s m1 m2 =
      match r with
      | none => some (appendRoot s (newToc m1 m2))
      | some a =>
        match s.heap[a]? with
        | none => none
        | some pn => attach s (newToc m1 m2) a (pn.ShowLevel + 1) := by
  have h1 : c.Level > (newToc m1 m2).Level := by
    rw [newToc_level]
    exact hl
  unfold addHeading
  simp only [hc, hn]
  rw [if_pos h1]
  simp only [newToc_level, hw]
  cases r <;> rfl

/-! ### Ancestors -/

theorem properAnc_iff (h : Heap) (x q b : Nat) (hq : pcode h x = q + 1) :
    ProperAnc h x b ↔ Anc h q b := by
  constructor
  · rintro ⟨q2, h1, h2⟩
    have : q2 = q := by omega
    rw [← this]
    exact h2
  · intro ha
    exact ⟨q, hq, ha⟩

theorem anc_cases (h : Heap) (q b : Nat) (ha : Anc h q b) : b = q ∨ ProperAnc h q b := by
  cases ha with
  | self => exact Or.inl rfl
  | up _ b2 _ hp hrest => exact Or.inr ⟨b2, hp, hrest⟩

theorem properAnc_lt {s : GenState} (wf : WF s) {b a : Nat} (h : ProperAnc s.heap b a) :
    a < b := by
  obtain ⟨q, hq, ha⟩ := h
  have h1 := wf.par b
  have h2 := (anc_bound wf ha).1
  omega

theorem properAnc_trans_anc (h : Heap) (x q a : Nat) (h1 : pcode h x = q + 1)
    (h2 : ProperAnc h q a) : ProperAnc h x a := by
  obtain ⟨q2, h3, h4⟩ := h2
  exact ⟨q, h1, Anc.up q q2 a h3 h4⟩

/-- With levels rising along the parent links, a walk of more than
`Level x - lvl` steps from a node `x` with `Level x ≥ lvl` stops by itself, at the nearest
proper ancestor with a `Level` below `lvl` or at `nil`. -/
theorem walkUp_nearest (s : GenState) (wf : WF s) (hrise : LevelsRise s.heap) (lvl : Int)
    (k : Nat) :
    ∀ x, x < s.heap.length → lvl ≤ levelAt s.heap x → levelAt s.heap x - lvl + 1 ≤ (k : Int) →
      ∃ r, walkUp s.heap lvl k (some x) = some r ∧ NearestShallower s.heap lvl x r := by
  induction k with
  | zero =>
    intro x _ h1 h2
    exfalso
    omega
  | succ k ih =>
    intro x hx h1 h2
    obtain ⟨pn, hpn⟩ := getElem?_of_lt s.heap x hx
    simp only [walkUp, deref, hpn]
    cases hq : pn.Parent with
    | none =>
      refine ⟨none, rfl, ?_⟩
      rintro b ⟨q, hb, -⟩
      have h0 : pcode s.heap x = 0 := by
        rw [pcode_of_getElem? s.heap x pn hpn, hq]
      omega
    | some q =>
      have hpc : pcode s.heap x = q + 1 := by
        rw [pcode_of_getElem? s.heap x pn hpn, hq]
      have hqx : q < x := by
        have := wf.par x
        omega
      obtain ⟨qn, hqn⟩ := getElem?_of_lt s.heap q (by omega)
      have hlq : levelAt s.heap q = qn.Level := levelAt_of_getElem? s.heap q qn hqn
      have hlt := hrise x q hpc
      simp only [hqn]
      split
      · rename_i hlow
        refine ⟨some q, rfl, ⟨q, hpc, Anc.self q⟩, by rw [hlq]; exact hlow, ?_⟩
        intro b hb1 hb2
        exfalso
        have h3 := (anc_bound wf ((properAnc_iff s.heap x q b hpc).1 hb1)).1
        have h4 := properAnc_lt wf hb2
        omega
      · rename_i hhigh
        have hq1 : lvl ≤ levelAt s.heap q := by
          rw [hlq]
          omega
        obtain ⟨r, hr, hnear⟩ := ih q (by omega) hq1 (by omega)
        refine ⟨r, hr, ?_⟩
        cases r with
        | none =>
          intro b hb
          rcases anc_cases s.heap q b ((properAnc_iff s.heap x q b hpc).1 hb) with e | hpb
          · rw [e]
            exact hq1
          · exact hnear b hpb
        | some a =>
          obtain ⟨n1, n2, n3⟩ := hnear
          refine ⟨properAnc_trans_anc s.heap x q a hpc n1, n2, ?_⟩
          intro b hb1 hb2
          rcases anc_cases s.heap q b ((properAnc_iff s.heap x q b hpc).1 hb1) with e | hpb
          · rw [e]
            exact hq1
          · exact n3 b hpb hb2

/-! ### Levels rise from parent to child -/

theorem rise_appendRoot (s : GenState) (wf : WF s) (hr : LevelsRise s.heap)
    (toc : ArticleTOC) (hp : toc.Parent = none) : LevelsRise (appendRoot s toc).heap := by
  obtain ⟨-, hpc, hlv, -⟩ := appendRoot_at s toc hp
  intro i p hip
  rw [hpc] at hip
  split at hip
  · omega
  · have hi := pcode_pos_lt s.heap i p hip
    have hpi : p < i := by
      have := wf.par i
      omega
    rw [hlv, hlv, if_neg (by omega), if_neg (by omega)]
    exact hr i p hip

theorem rise_attach (s s1 : GenState) (wf : WF s) (hr : LevelsRise s.heap)
    (toc : ArticleTOC) (a : Nat) (sh : Int) (e : attach s toc a sh = some s1)
    (ha : a < s.heap.length) (hl : levelAt s.heap a < toc.Level) : LevelsRise s1.heap := by
  obtain ⟨-, hpc, hlv, -⟩ := attach_at s s1 toc a sh e
  intro i p hip
  rw [hpc] at hip
  split at hip
  · rename_i hi
    have hpa : p = a := by omega
    rw [hlv, hlv, if_neg (by omega), if_pos hi, hpa]
    exact hl
  · have hi := pcode_pos_lt s.heap i p hip
    have hpi : p < i := by
      have := wf.par i
      omega
    rw [hlv, hlv, if_neg (by omega), if_neg (by omega)]
    exact hr i p hip

/-- The node `currentToc` points to, in a state of the loop that has one. -/
theorem cur_of_wf (s : GenState) (wf : WF s) (cur : Nat) (hc : s.currentToc = some cur) :
    0 < s.heap.length ∧ cur = s.heap.length - 1 ∧ ∃ c, s.heap[cur]? = some c := by
  have h := wf.cur
  rw [hc] at h
  split at h
  · cases h
  · rename_i hne
    have h2 : cur = s.heap.length - 1 := by simpa using h
    exact ⟨by omega, h2, getElem?_of_lt s.heap cur (by omega)⟩

/-- One heading keeps the levels rising along the parent links. -/
theorem addHeading_rise (s s1 : GenState) (wf : WF s) (hr : LevelsRise s.heap)
    (m1 m2 : List Char) (e : addHeading s m1 m2 = some s1) : LevelsRise s1.heap := by
  have hroot := rise_appendRoot s wf hr (newToc m1 m2) (newToc_parent m1 m2)
  cases hcur : s.currentToc with
  | none =>
    rw [addHeading_first s m1 m2 hcur] at e
    cases e
    exact hroot
  | some cur =>
    obtain ⟨hpos, hcur2, c, hcn⟩ := cur_of_wf s wf cur hcur
    have hlc : levelAt s.heap cur = c.Level := levelAt_of_getElem? s.heap cur c hcn
    rcases lt_trichotomy c.Level (m1.length : Int) with lt | eq | gt
    · rw [addHeading_child s m1 m2 cur c hcur hcn lt] at e
      exact rise_attach s s1 wf hr _ cur _ e (by omega) (by rw [hlc, newToc_level]; exact lt)
    · cases hp : c.Parent with
      | none =>
        rw [addHeading_sibling_root s m1 m2 cur c hcur hcn eq hp] at e
        cases e
        exact hroot
      | some p =>
        rw [addHeading_sibling s m1 m2 cur p c hcur hcn eq hp] at e
        have hpc : pcode s.heap cur = p + 1 := by
          rw [pcode_of_getElem? s.heap cur c hcn, hp]
        have h1 := hr cur p hpc
        have h2 := wf.par cur
        exact rise_attach s s1 wf hr _ p _ e (by omega) (by rw [newToc_level]; omega)
    · obtain ⟨r, hw, hnear⟩ := walkUp_nearest s wf hr (m1.length : Int)
        (Int.toNat (c.Level - (m1.length : Int) + 1)) cur (by omega) (by omega) (by omega)
      rw [addHeading_ascend s m1 m2 cur c hcur hcn gt r hw] at e
      cases r with
      | none =>
        cases e
        exact hroot
      | some a =>
        obtain ⟨n1, n2, -⟩ := hnear
        have hlt := properAnc_lt wf n1
        obtain ⟨pn, hpn⟩ := getElem?_of_lt s.heap a (by omega)
        simp only [hpn] at e
        exact rise_attach s s1 wf hr _ a _ e (by omega) (by rw [newToc_level]; exact n2)

theorem rise_init : LevelsRise ([] : Heap) := by
  intro i p h
  rw [pcode_ge_length [] i (Nat.zero_le _)] at h
  omega

/-- The loop from a state with the two invariants: it returns, keeps them, and stores one
node per heading line, in order. -/
theorem genLoop_inv (lines : List (List Char)) :
    ∀ s, WF s → LevelsRise s.heap →
      ∃ s1, genLoop s lines = some s1 ∧ WF s1 ∧ LevelsRise s1.heap ∧
        s1.heap.map lineData =
          s.heap.map lineData ++ (lines.filterMap titleRegex).map headingData := by
  induction lines with
  | nil =>
    intro s wf hr
    exact ⟨s, rfl, wf, hr, by simp⟩
  | cons line rest ih =>
    intro s wf hr
    simp only [genLoop, loopBody]
    cases hm : titleRegex line with
    | none =>
      obtain ⟨s1, h1, h2, h3, h4⟩ := ih s wf hr
      refine ⟨s1, by simpa using h1, h2, h3, ?_⟩
      rw [h4, List.filterMap_cons_none hm]
    | some m =>
      obtain ⟨m1, m2⟩ := m
      obtain ⟨s0, e0, wf0⟩ := addHeading_wf s wf m1 m2
      have r0 := addHeading_rise s s0 wf hr m1 m2 e0
      have d0 := addHeading_data s s0 m1 m2 e0
      obtain ⟨s1, h1, h2, h3, h4⟩ := ih s0 wf0 r0
      refine ⟨s1, by simpa [e0] using h1, h2, h3, ?_⟩
      rw [h4, d0, List.filterMap_cons_some hm]
      simp

/-- The state of the loop started in an empty memory with an empty `Toc`, after any
list of lines. -/
theorem fresh_inv (lines : List (List Char)) :
    ∃ s, genLoop { heap := [], Toc := [], currentToc := none } lines = some s ∧ WF s ∧
      LevelsRise s.heap ∧
      s.heap.map lineData = (lines.filterMap titleRegex).map headingData := by
  obtain ⟨s, h1, h2, h3, h4⟩ := genLoop_inv lines _ wf_init rise_init
  exact ⟨s, h1, h2, h3, by simpa using h4⟩

/-- Every stored node has a `Level` from 1 to 6. -/
theorem level_range (lines : List (List Char)) (h : Heap)
    (hd : h.map lineData = (lines.filterMap titleRegex).map headingData) (i : Nat)
    (nd : ArticleTOC) (hi : h[i]? = some nd) : 1 ≤ nd.Level ∧ nd.Level ≤ 6 := by
  have hmem : lineData nd ∈ (lines.filterMap titleRegex).map headingData := by
    rw [← hd]
    exact List.mem_map_of_mem lineData (List.getElem?_mem hi)
  obtain ⟨m, hm1, hm2⟩ := List.mem_map.mp hmem
  obtain ⟨line, -, hline⟩ := List.mem_filterMap.mp hm1
  obtain ⟨m1, m2⟩ := m
  obtain ⟨ws, c, -, -, -, h1, h2, -⟩ := (titleRegex_eq line m1 m2).1 hline
  have hl : nd.Level = (m1.length : Int) := by
    have := congrArg (fun t => t.1) hm2
    exact this.symm
  rw [hl]
  omega

theorem genLoop_eq_genHeadings (lines : List (List Char)) :
    ∀ s, genLoop s lines = genHeadings s (lines.filterMap titleRegex) := by
  induction lines with
  | nil =>
    intro s
    rfl
  | cons line rest ih =>
    intro s
    simp only [genLoop, loopBody]
    cases hm : titleRegex line with
    | none =>
      rw [List.filterMap_cons_none hm]
      exact ih s
    | some m =>
      rw [List.filterMap_cons_some hm]
      simp only [genHeadings]
      cases addHeading s m.1 m.2 with
      | none => rfl
      | some s1 => exact ih s1

theorem genLoop_no_heading (lines : List (List Char))
    (h : ∀ line ∈ lines, titleRegex line = none) : ∀ s, genLoop s lines = some s := by
  induction lines with
  | nil =>
    intro s
    rfl
  | cons line rest ih =>
    intro s
    have h1 : titleRegex line = none := h line (by simp)
    simp only [genLoop, loopBody, h1]
    exact ih (fun l hl => h l (by simp [hl])) s

theorem filterMap_filter_isSome {α β : Type} (f : α → Option β) (l : List α) :
    l.filterMap f = (l.filter (fun x => (f x).isSome)).filterMap f := by
  induction l with
  | nil => rfl
  | cons x xs ih =>
    cases hx : f x with
    | none =>
      rw [List.filterMap_cons_none hx, List.filter_cons_of_neg (by simp [hx])]
      exact ih
    | some y =>
      rw [List.filterMap_cons_some hx, List.filter_cons_of_pos (by simp [hx]),
        List.filterMap_cons_some hx, ih]

/-- The run of `GenTOC` in an empty memory is the loop body applied to the heading lines. -/
theorem GenTOC_of_headings (content : List Char) :
    GenTOC [] { Content := content, Toc := [] } =
      (genHeadings { heap := [], Toc := [], currentToc := none } (headingLines content)).map
        (fun s => (s.heap, { Content := content, Toc := s.Toc })) := by
  simp only [GenTOC, genLoop_eq_genHeadings, headingLines]
  cases genHeadings { heap := [], Toc := [], currentToc := none }
    ((splitLines content).filterMap titleRegex) <;> rfl

theorem same_headings_same_run (c1 c2 : List Char) (h : headingLines c1 = headingLines c2) :
    ∃ heap toc,
      GenTOC [] { Content := c1, Toc := [] } = some (heap, { Content := c1, Toc := toc }) ∧
      GenTOC [] { Content := c2, Toc := [] } = some (heap, { Content := c2, Toc := toc }) ∧
      ∀ d, forestOf c1 d = forestOf c2 d := by
  obtain ⟨s, hs, -, -⟩ := GenTOC_fresh c1
  have h1 := GenTOC_of_headings c1
  have h2 := GenTOC_of_headings c2
  rw [hs] at h1
  rw [← h] at h2
  cases hg : genHeadings { heap := [], Toc := [], currentToc := none } (headingLines c1) with
  | none =>
    rw [hg] at h1
    cases h1
  | some s1 =>
    rw [hg] at h1 h2
    simp only [Option.map_some', Option.some.injEq, Prod.mk.injEq, Article.mk.injEq,
      true_and] at h1
    have e2 : GenTOC [] { Content := c2, Toc := [] } =
        some (s.heap, { Content := c2, Toc := s.Toc }) := by
      rw [h2, h1.1, h1.2]
      rfl
    refine ⟨s.heap, s.Toc, hs, e2, fun d => ?_⟩
    simp only [forestOf, hs, e2]

/-! ### Two regular shapes: one chain, and roots only -/

theorem filter_beq_range (n x : Nat) :
    (List.range n).filter (fun j => j == x) = if x < n then [x] else [] := by
  induction n with
  | zero => simp
  | succ n ih =>
    rw [List.range_succ, List.filter_append, ih]
    rcases Nat.lt_trichotomy x n with lt | eq | gt
    · have h1 : x < n + 1 := by omega
      have h2 : (n == x) = false := by simp; omega
      simp [lt, h1, h2]
    · subst eq
      simp
    · have h1 : ¬ x < n := by omega
      have h2 : ¬ x < n + 1 := by omega
      have h3 : (n == x) = false := by simp; omega
      simp [h1, h2, h3]

theorem kids_congr (h : Heap) (f : Nat → Nat) (hf : ∀ j, j < h.length → pcode h j = f j)
    (x : Nat) : kids h x = (List.range h.length).filter (fun j => f j == x) := by
  unfold kids
  apply List.filter_congr
  intro j hj
  rw [hf j (List.mem_range.mp hj)]

/-- The heap is one chain: every node but the first has the node before it as parent, and
the `ShowLevel` goes up by one from node to node, starting at 2. -/
theorem chain_step (s : GenState) (wf : WF s) (m1 m2 : List Char)
    (hch : ∀ i, i < s.heap.length → pcode s.heap i = i ∧ showAt s.heap i = (i : Int) + 2)
    (hlast : 0 < s.heap.length → levelAt s.heap (s.heap.length - 1) < (m1.length : Int)) :
    ∃ s1, addHeading s m1 m2 = some s1 ∧ WF s1 ∧ s1.heap.length = s.heap.length + 1 ∧
      levelAt s1.heap s.heap.length = (m1.length : Int) ∧
      ∀ i, i < s1.heap.length → pcode s1.heap i = i ∧ showAt s1.heap i = (i : Int) + 2 := by
  obtain ⟨s1, e, wf1⟩ := addHeading_wf s wf m1 m2
  refine ⟨s1, e, wf1, ?_⟩
  cases hcur : s.currentToc with
  | none =>
    have hn : s.heap.length = 0 := by
      have h := wf.cur
      rw [hcur] at h
      by_contra hne
      simp [hne] at h
    rw [addHeading_first s m1 m2 hcur] at e
    cases e
    obtain ⟨h1, h2, h3, h4⟩ := appendRoot_at s (newToc m1 m2) (newToc_parent m1 m2)
    refine ⟨h1, by rw [h3, if_pos rfl]; rfl, fun i hi => ?_⟩
    have : i = s.heap.length := by omega
    rw [h2, h4, if_pos this, if_pos this, newToc_showLevel]
    constructor <;> omega
  | some cur =>
    obtain ⟨hpos, hcur2, c, hcn⟩ := cur_of_wf s wf cur hcur
    have hlc : levelAt s.heap cur = c.Level := levelAt_of_getElem? s.heap cur c hcn
    have hsc : showAt s.heap cur = c.ShowLevel := showAt_of_getElem? s.heap cur c hcn
    have hlt : c.Level < (m1.length : Int) := by
      rw [← hlc, hcur2]
      exact hlast hpos
    rw [addHeading_child s m1 m2 cur c hcur hcn hlt] at e
    obtain ⟨h1, h2, h3, h4⟩ := attach_at s s1 _ cur _ e
    refine ⟨h1, by rw [h3, if_pos rfl]; rfl, fun i hi => ?_⟩
    rw [h2, h4]
    by_cases ei : i = s.heap.length
    · rw [if_pos ei, if_pos ei, ← hsc, (hch cur (by omega)).2]
      constructor <;> omega
    · rw [if_neg ei, if_neg ei]
      exact hch i (by omega)

theorem chain_run (hs : List (List Char × List Char)) :
    ∀ s, WF s → 0 < s.heap.length →
      (∀ i, i < s.heap.length → pcode s.heap i = i ∧ showAt s.heap i = (i : Int) + 2) →
      List.Chain (fun a b : Int => a < b) (levelAt s.heap (s.heap.length - 1))
        (hs.map (fun m => (m.1.length : Int))) →
      ∃ s1, genHeadings s hs = some s1 ∧ WF s1 ∧
        s1.heap.length = s.heap.length + hs.length ∧
        ∀ i, i < s1.heap.length → pcode s1.heap i = i ∧ showAt s1.heap i = (i : Int) + 2 := by
  induction hs with
  | nil =>
    intro s wf _ hch _
    exact ⟨s, rfl, wf, rfl, hch⟩
  | cons m rest ih =>
    intro s wf hpos hch hinc
    rw [List.map_cons, List.chain_cons] at hinc
    obtain ⟨s0, e0, wf0, hl0, hlv0, hch0⟩ := chain_step s wf m.1 m.2 hch (fun _ => hinc.1)
    have hlast : levelAt s0.heap (s0.heap.length - 1) = (m.1.length : Int) := by
      rw [hl0, Nat.add_sub_cancel]
      exact hlv0
    obtain ⟨s1, e1, wf1, hl1, hch1⟩ := ih s0 wf0 (by omega) hch0 (by rw [hlast]; exact hinc.2)
    refine ⟨s1, by simp only [genHeadings, e0, e1], wf1, ?_, hch1⟩
    rw [hl1, hl0, List.length_cons]
    omega

/-- All headings at one level: every heading becomes a root. -/
theorem flat_step (s : GenState) (wf : WF s) (m1 m2 : List Char)
    (hfl : ∀ i, i < s.heap.length →
      pcode s.heap i = 0 ∧ showAt s.heap i = 2 ∧ levelAt s.heap i = (m1.length : Int)) :
    ∃ s1, addHeading s m1 m2 = some s1 ∧ WF s1 ∧ s1.heap.length = s.heap.length + 1 ∧
      ∀ i, i < s1.heap.length →
        pcode s1.heap i = 0 ∧ showAt s1.heap i = 2 ∧ levelAt s1.heap i = (m1.length : Int) := by
  have hroot : addHeading s m1 m2 = some (appendRoot s (newToc m1 m2)) := by
    cases hcur : s.currentToc with
    | none => exact addHeading_first s m1 m2 hcur
    | some cur =>
      obtain ⟨hpos, hcur2, c, hcn⟩ := cur_of_wf s wf cur hcur
      obtain ⟨f1, -, f3⟩ := hfl cur (by omega)
      have hlc : c.Level = (m1.length : Int) := by
        rw [← levelAt_of_getElem? s.heap cur c hcn]
        exact f3
      have hp : c.Parent = none := by
        rw [pcode_of_getElem? s.heap cur c hcn] at f1
        cases hpar : c.Parent with
        | none => rfl
        | some p =>
          rw [hpar] at f1
          simp at f1
      exact addHeading_sibling_root s m1 m2 cur c hcur hcn hlc hp
  obtain ⟨s1, e, wf1⟩ := addHeading_wf s wf m1 m2
  rw [hroot] at e
  cases e
  obtain ⟨h1, h2, h3, h4⟩ := appendRoot_at s (newToc m1 m2) (newToc_parent m1 m2)
  refine ⟨_, hroot, wf1, h1, fun i hi => ?_⟩
  rw [h2, h3, h4]
  by_cases ei : i = s.heap.length
  · rw [if_pos ei, if_pos ei, if_pos ei]
    exact ⟨rfl, rfl, rfl⟩
  · rw [if_neg ei, if_neg ei, if_neg ei]
    exact hfl i (by omega)

theorem flat_run (d : Nat) (hs : List (List Char × List Char))
    (hd : ∀ m ∈ hs, m.1.length = d) :
    ∀ s, WF s →
      (∀ i, i < s.heap.length →
        pcode s.heap i = 0 ∧ showAt s.heap i = 2 ∧ levelAt s.heap i = (d : Int)) →
      ∃ s1, genHeadings s hs = some s1 ∧ WF s1 ∧
        s1.heap.length = s.heap.length + hs.length ∧
        ∀ i, i < s1.heap.length →
          pcode s1.heap i = 0 ∧ showAt s1.heap i = 2 ∧ levelAt s1.heap i = (d : Int) := by
  induction hs with
  | nil =>
    intro s wf hfl
    exact ⟨s, rfl, wf, rfl, hfl⟩
  | cons m rest ih =>
    intro s wf hfl
    have hm : m.1.length = d := hd m (by simp)
    obtain ⟨s0, e0, wf0, hl0, hfl0⟩ := flat_step s wf m.1 m.2 (by rw [hm]; exact hfl)
    rw [hm] at hfl0
    obtain ⟨s1, e1, wf1, hl1, hfl1⟩ := ih (fun x hx => hd x (by simp [hx])) s0 wf0 hfl0
    refine ⟨s1, by simp only [genHeadings, e0, e1], wf1, ?_, hfl1⟩
    rw [hl1, hl0, List.length_cons]
    omega

/-! ### The bound of the ascending walk -/

/-- One more step allowed changes nothing once the walk is allowed more than
`Level x - lvl` steps. -/
theorem walkUp_succ (s : GenState) (wf : WF s) (hrise : LevelsRise s.heap) (lvl : Int)
    (k : Nat) :
    ∀ x, x < s.heap.length → lvl ≤ levelAt s.heap x → levelAt s.heap x - lvl + 1 ≤ (k : Int) →
      walkUp s.heap lvl (k + 1) (some x) = walkUp s.heap lvl k (some x) := by
  induction k with
  | zero =>
    intro x _ h1 h2
    exfalso
    omega
  | succ k ih =>
    intro x hx h1 h2
    obtain ⟨pn, hpn⟩ := getElem?_of_lt s.heap x hx
    rw [walkUp, walkUp]
    simp only [deref, hpn]
    cases hq : pn.Parent with
    | none => rfl
    | some q =>
      have hpc : pcode s.heap x = q + 1 := by
        rw [pcode_of_getElem? s.heap x pn hpn, hq]
      have hqx : q < x := by
        have := wf.par x
        omega
      obtain ⟨qn, hqn⟩ := getElem?_of_lt s.heap q (by omega)
      have hlq : levelAt s.heap q = qn.Level := levelAt_of_getElem? s.heap q qn hqn
      have hlt := hrise x q hpc
      simp only [hqn]
      split
      · rfl
      · exact ih q (by omega) (by omega) (by omega)

theorem walkUp_ge (s : GenState) (wf : WF s) (hrise : LevelsRise s.heap) (lvl : Int)
    (x : Nat) (hx : x < s.heap.length) (h1 : lvl ≤ levelAt s.heap x) (k0 : Nat)
    (h2 : levelAt s.heap x - lvl + 1 ≤ (k0 : Int)) (k : Nat) (hk : k0 ≤ k) :
    walkUp s.heap lvl k (some x) = walkUp s.heap lvl k0 (some x) := by
  induction k, hk using Nat.le_induction with
  | base => rfl
  | succ k hk ih =>
    rw [walkUp_succ s wf hrise lvl k x hx h1 (by omega), ih]

theorem mem_kids (h : Heap) (x m : Nat) : m ∈ kids h x ↔ m < h.length ∧ pcode h m = x := by
  unfold kids
  rw [List.mem_filter, List.mem_range]
  simp

theorem kids_nodup (h : Heap) (x : Nat) : (kids h x).Nodup :=
  List.Nodup.filter _ (List.nodup_range _)

theorem pcode_eq_succ_iff (h : Heap) (m n : Nat) :
    pcode h m = n + 1 ↔ ∃ md, h[m]? = some md ∧ md.Parent = some n := by
  unfold pcode
  cases hm : h[m]? with
  | none => simp
  | some md =>
    cases hp : md.Parent with
    | none => simp [hp]
    | some p => simp [hp]

theorem pcode_eq_zero_of_root (h : Heap) (m : Nat) (md : ArticleTOC) (hm : h[m]? = some md)
    (hp : md.Parent = none) : pcode h m = 0 := by
  rw [pcode_of_getElem? h m md hm, hp]

theorem lt_of_getElem? (h : Heap) (i : Nat) (nd : ArticleTOC) (hi : h[i]? = some nd) :
    i < h.length := by
  by_contra hge
  rw [List.getElem?_eq_none (by omega)] at hi
  cases hi

/-- Walking `j` parent links up lowers the `Level` by at least `j`, and stays in the heap. -/
theorem ancSteps_level (s : GenState) (wf : WF s) (hrise : LevelsRise s.heap) {c a j : Nat}
    (h : AncSteps s.heap c a j) :
    levelAt s.heap a + (j : Int) ≤ levelAt s.heap c ∧ a ≤ c := by
  induction h with
  | self c => exact ⟨by simp, Nat.le_refl c⟩
  | up c b a k hp _ ih =>
    have h1 := hrise c b hp
    have h2 := wf.par c
    refine ⟨?_, by omega⟩
    push_cast
    omega

/-- The state of the loop after the first `k` lines of a content; when `k` covers all
lines it is the result of `GenTOC`. -/
theorem prefix_inv (content : List Char) (k : Nat) :
    ∃ s, genLoop { heap := [], Toc := [], currentToc := none }
          ((splitLines content).take k) = some s ∧ WF s ∧ LevelsRise s.heap ∧
      (∀ (i : Nat) (nd : ArticleTOC), s.heap[i]? = some nd → 1 ≤ nd.Level ∧ nd.Level ≤ 6) ∧
      ((splitLines content).length ≤ k →
        GenTOC [] { Content := content, Toc := [] } =
          some (s.heap, { Content := content, Toc := s.Toc })) := by
  obtain ⟨s, h1, h2, h3, h4⟩ := fresh_inv ((splitLines content).take k)
  refine ⟨s, h1, h2, h3, fun i nd hi => level_range _ s.heap h4 i nd hi, fun hk => ?_⟩
  rw [List.take_of_length_le hk] at h1
  simp only [GenTOC, h1]

/-! ## The claims -/

/-- C1 (the code departs from it): on the content `# A`, `## B`, `## C` the node of `## C`
(address 2) gets `Parent` = the node of `# A` (address 0, `ShowLevel` 2) but `ShowLevel` 4,
not 3: the sibling branch adds one to the `ShowLevel` of the previous sibling. -/
theorem C1_sibling_showLevel :
    ∃ heap art a c,
      GenTOC [] { Content := "# A\n## B\n## C".toList, Toc := [] } = some (heap, art) ∧
        heap[0]? = some a ∧ heap[2]? = some c ∧ c.Parent = some 0 ∧
        a.ShowLevel = 2 ∧ c.ShowLevel = 4 ∧ c.ShowLevel ≠ a.ShowLevel + 1 :=
  ⟨[⟨"A".toList, "A".toList, [1, 2], none, 1, 2⟩, ⟨"B".toList, "B".toList, [], some 0, 2, 3⟩,
      ⟨"C".toList, "C".toList, [], some 0, 2, 4⟩],
    ⟨"# A\n## B\n## C".toList, [0]⟩, ⟨"A".toList, "A".toList, [1, 2], none, 1, 2⟩,
    ⟨"C".toList, "C".toList, [], some 0, 2, 4⟩, by decide, rfl, rfl, rfl, rfl, rfl, by decide⟩

/-- C2: run on an article with an empty `Toc`, `GenTOC` returns, and every element of `Toc`
points to a node with `ShowLevel = 2` and `Parent = nil`. -/
theorem C2_roots_showLevel_two (content : List Char) :
    ∃ heap toc,
      GenTOC [] { Content := content, Toc := [] } =
          some (heap, { Content := content, Toc := toc }) ∧
        ∀ r ∈ toc, ∃ nd, heap[r]? = some nd ∧ nd.ShowLevel = 2 ∧ nd.Parent = none := by
  obtain ⟨s, hs, wf, -⟩ := GenTOC_fresh content
  refine ⟨s.heap, s.Toc, hs, fun r hr => ?_⟩
  rw [wf.toc] at hr
  unfold kids at hr
  obtain ⟨h1, h2⟩ := List.mem_filter.mp hr
  obtain ⟨nd, hnd⟩ := getElem?_of_lt s.heap r (List.mem_range.mp h1)
  have hp : nd.Parent = none := by
    rw [pcode_of_getElem? s.heap r nd hnd] at h2
    cases hpar : nd.Parent with
    | none => rfl
    | some p =>
      rw [hpar] at h2
      simp at h2
  exact ⟨nd, hnd, wf.root r nd hnd hp, hp⟩

/-- C3 (the code departs from it): for the lines `# A`, `## B`, `## C`, `# D` the forest has
the two roots A (`ShowLevel` 2, children B then C, both without children) and D
(`ShowLevel` 2, no children), but C has `ShowLevel` 4 where B has 3. -/
theorem C3_scenario_forest :
    (GenTOC [] { Content := "# A\n## B\n## C\n# D".toList, Toc := [] }).map
        (fun r => readForest r.1 r.1.length r.2.Toc) =
      some [TocTree.node "A".toList "A".toList 1 2
              [TocTree.node "B".toList "B".toList 2 3 [],
               TocTree.node "C".toList "C".toList 2 4 []],
            TocTree.node "D".toList "D".toList 1 2 []] := by
  rfl

/-- C4: run on an article with an empty `Toc`, `GenTOC` returns, and the pre-order walk of
the forest from `Toc` (to any depth not below the number of nodes) meets one node per
heading line of the content, in the order of the lines, the i-th node having the marker
count, the title and the slug of the i-th heading line as `Level`, `Title` and `Slug`. -/
theorem C4_preorder_is_document_order (content : List Char) :
    ∃ heap toc,
      GenTOC [] { Content := content, Toc := [] } =
          some (heap, { Content := content, Toc := toc }) ∧
        ∀ d, heap.length ≤ d →
          (preorder heap d toc).map (fun p => (heap[p]?).map lineData) =
            (headingLines content).map (fun m => some (headingData m)) := by
  obtain ⟨s, hs, wf, hdata⟩ := GenTOC_fresh content
  refine ⟨s.heap, s.Toc, hs, fun d hd => ?_⟩
  rw [preorder_wf s wf d hd]
  have h1 := map_getElem?_range (s.heap.map lineData)
  rw [List.length_map] at h1
  simp only [List.getElem?_map] at h1
  rw [h1, hdata, List.map_map]
  rfl

/-- C6: on a line taken as a heading the markers captured are the leading marker run of
the line, the node gets its length as `Level`, and `1 ≤ Level ≤ 6`; a line whose marker
run has 7 or more `#`, or is not followed by a whitespace character, or is preceded by 3 or
more characters, leaves the state of the loop as it is (no node). -/
theorem C6_level_and_rejections (line : List Char) :
    (∀ hs rest, titleRegex line = some (hs, rest) →
      hs = markerRun line ∧ (newToc hs rest).Level = ((markerRun line).length : Int) ∧
        1 ≤ (newToc hs rest).Level ∧ (newToc hs rest).Level ≤ 6) ∧
    (7 ≤ (markerRun line).length → ∀ s, loopBody s line = some s) ∧
    ((∀ c, (afterRun line).head? = some c → isSpace c = false) →
      ∀ s, loopBody s line = some s) ∧
    (3 ≤ (beforeRun line).length → ∀ s, loopBody s line = some s) := by
  refine ⟨fun hs rest e => ?_, fun h s => ?_, fun h s => ?_, fun h s => ?_⟩
  · obtain ⟨-, h2, h3, h4, -⟩ := parts_of_match line hs rest e
    refine ⟨h2.symm, ?_, ?_, ?_⟩
    · rw [h2]
      rfl
    · show (1 : Int) ≤ (hs.length : Int)
      omega
    · show (hs.length : Int) ≤ 6
      omega
  · apply loopBody_none
    cases e : titleRegex line with
    | none => rfl
    | some m =>
      obtain ⟨hs, rest⟩ := m
      obtain ⟨-, h2, -, h4, -⟩ := parts_of_match line hs rest e
      rw [h2] at h
      omega
  · apply loopBody_none
    cases e : titleRegex line with
    | none => rfl
    | some m =>
      obtain ⟨hs, rest⟩ := m
      obtain ⟨-, -, -, -, c, h5, h6⟩ := parts_of_match line hs rest e
      have hc := h c (by rw [h5]; rfl)
      rw [hc] at h6
      cases h6
  · apply loopBody_none
    cases e : titleRegex line with
    | none => rfl
    | some m =>
      obtain ⟨hs, rest⟩ := m
      obtain ⟨h1, -⟩ := parts_of_match line hs rest e
      omega

/-- C7 (the code departs from it): the title `a|b` has no whitespace and no `.`, yet its
slug is `a-b`: the class `[\s|\.]` of `whitespaces` contains the character `|`. -/
theorem C7_pipe_replaced :
    whitespaces "a|b".toList = "a-b".toList ∧
      GenTOC [] { Content := "# a|b".toList, Toc := [] } =
        some ([{ Title := "a|b".toList, Slug := "a-b".toList, SubTitles := [],
                 Parent := none, Level := 1, ShowLevel := 2 }],
              { Content := "# a|b".toList, Toc := [0] }) := by
  decide

/-- C8: the slug of the title `Hello   World. Two` is `Hello-World-Two`, and `GenTOC` on the
content `# Hello   World. Two` yields one root with that title and that slug. -/
theorem C8_slug_example :
    whitespaces "Hello   World. Two".toList = "Hello-World-Two".toList ∧
      GenTOC [] { Content := "# Hello   World. Two".toList, Toc := [] } =
        some ([{ Title := "Hello   World. Two".toList, Slug := "Hello-World-Two".toList,
                 SubTitles := [], Parent := none, Level := 1, ShowLevel := 2 }],
              { Content := "# Hello   World. Two".toList, Toc := [0] }) := by
  decide

/-- C9 (as stated it fails): the title `a`, U+3000, `b` holds the whitespace character
U+3000 (ideographic space), which is not in the class `\s` of the pattern; `GenTOC` on the
content `# a`, U+3000, `b` stores a node whose `Slug` still holds it. -/
theorem C9_ideographic_space_kept :
    ∃ heap art nd c,
      GenTOC [] { Content := "# a\u3000b".toList, Toc := [] } = some (heap, art) ∧
        nd ∈ heap ∧ c ∈ nd.Slug ∧ isUnicodeSpace c = true ∧ isSpace c = false :=
  ⟨[{ Title := "a\u3000b".toList, Slug := "a\u3000b".toList, SubTitles := [],
      Parent := none, Level := 1, ShowLevel := 2 }],
    { Content := "# a\u3000b".toList, Toc := [0] },
    { Title := "a\u3000b".toList, Slug := "a\u3000b".toList, SubTitles := [],
      Parent := none, Level := 1, ShowLevel := 2 },
    '\u3000', by decide, List.mem_singleton.mpr rfl, by decide, by decide, by decide⟩

/-- C9 (amended): run on an article with an empty `Toc`, `GenTOC` returns, and the `Slug` of
every node it stored has no character of the class `\s` (tab, newline, form feed, carriage
return, space) and no `.`. -/
theorem C9_slug_clean (content : List Char) :
    ∃ heap art,
      GenTOC [] { Content := content, Toc := [] } = some (heap, art) ∧
        ∀ nd ∈ heap, ∀ c ∈ nd.Slug, isSpace c = false ∧ c ≠ '.' := by
  obtain ⟨s, hs, -, hdata⟩ := GenTOC_fresh content
  refine ⟨s.heap, _, hs, fun nd hnd c hc => ?_⟩
  have hmem : lineData nd ∈ (headingLines content).map headingData := by
    rw [← hdata]
    exact List.mem_map_of_mem lineData hnd
  obtain ⟨m, -, hm⟩ := List.mem_map.mp hmem
  have hslug : nd.Slug = whitespaces m.2 := by
    have := congrArg (fun t => t.2.2) hm
    exact this.symm
  rw [hslug] at hc
  have hcl := replaceRuns_clean false m.2 c hc
  simp only [whitespacesClass, Bool.or_eq_false_iff, beq_eq_false_iff_ne, ne_eq] at hcl
  exact ⟨hcl.1.1, hcl.2⟩

/-- C10 (as stated it fails): for the content `# A`, a second call of `GenTOC` on the
article left by the first finds the same `Content` but leaves two roots where the first
call left one: `Toc` is appended to, not rebuilt. -/
theorem C10_second_call_appends :
    ∃ h1 a1 h2 a2,
      GenTOC [] { Content := "# A".toList, Toc := [] } = some (h1, a1) ∧
        GenTOC h1 a1 = some (h2, a2) ∧ a1.Content = a2.Content ∧
        (readForest h1 h1.length a1.Toc).length = 1 ∧
        (readForest h2 h2.length a2.Toc).length = 2 ∧
        readForest h2 h2.length a2.Toc ≠ readForest h1 h1.length a1.Toc := by
  refine ⟨[⟨"A".toList, "A".toList, [], none, 1, 2⟩], ⟨"# A".toList, [0]⟩,
    [⟨"A".toList, "A".toList, [], none, 1, 2⟩, ⟨"A".toList, "A".toList, [], none, 1, 2⟩],
    ⟨"# A".toList, [0, 1]⟩, by decide, by decide, rfl, rfl, rfl, ?_⟩
  intro e
  have := congrArg List.length e
  revert this
  decide

/-- C10 (amended): in a memory whose nodes and `Toc` hold no dangling address, `GenTOC`
returns and leaves in `Toc` the roots it held before, read as before, followed by the
forest determined by `Content` alone (so exactly that forest when `Toc` was empty); a
second call in succession leaves the old roots followed by that forest twice. -/
theorem C10_toc_appended (h0 : Heap) (t0 : List Nat) (content : List Char)
    (hclosed : ∀ nd ∈ h0, ∀ p ∈ nd.SubTitles, p < h0.length)
    (ht0 : ∀ p ∈ t0, p < h0.length) :
    ∃ h1 r1,
      GenTOC h0 { Content := content, Toc := t0 } =
          some (h1, { Content := content, Toc := t0 ++ r1 }) ∧
        (∀ d, readForest h1 d (t0 ++ r1) = readForest h0 d t0 ++ forestOf content d) ∧
        ∃ h2 r2,
          GenTOC h1 { Content := content, Toc := t0 ++ r1 } =
              some (h2, { Content := content, Toc := t0 ++ r1 ++ r2 }) ∧
            ∀ d, readForest h2 d (t0 ++ r1 ++ r2) =
              readForest h0 d t0 ++ forestOf content d ++ forestOf content d := by
  obtain ⟨h1, r1, e1, f1, c1, b1⟩ := GenTOC_appends h0 t0 content hclosed ht0
  obtain ⟨h2, r2, e2, f2, -, -⟩ := GenTOC_appends h1 (t0 ++ r1) content c1 b1
  exact ⟨h1, r1, e1, f1, h2, r2, e2, fun d => by rw [f2, f1]⟩

/-- C10 (amended), in a memory that holds the tree of an earlier article (a root with one
child) for the content `# A`. -/
theorem C10_toc_appended_witness :
    ∃ h1 r1,
      GenTOC [⟨"X".toList, "X".toList, [1], none, 1, 2⟩,
              ⟨"Y".toList, "Y".toList, [], some 0, 2, 3⟩]
          { Content := "# A".toList, Toc := [0] } =
          some (h1, { Content := "# A".toList, Toc := [0] ++ r1 }) ∧
        (∀ d, readForest h1 d ([0] ++ r1) =
          readForest [⟨"X".toList, "X".toList, [1], none, 1, 2⟩,
              ⟨"Y".toList, "Y".toList, [], some 0, 2, 3⟩] d [0] ++
            forestOf "# A".toList d) ∧
        ∃ h2 r2,
          GenTOC h1 { Content := "# A".toList, Toc := [0] ++ r1 } =
              some (h2, { Content := "# A".toList, Toc := [0] ++ r1 ++ r2 }) ∧
            ∀ d, readForest h2 d ([0] ++ r1 ++ r2) =
              readForest [⟨"X".toList, "X".toList, [1], none, 1, 2⟩,
                  ⟨"Y".toList, "Y".toList, [], some 0, 2, 3⟩] d [0] ++
                forestOf "# A".toList d ++ forestOf "# A".toList d :=
  C10_toc_appended _ [0] "# A".toList (by decide) (by decide)

/-- C11: `GenTOC` is total. In every memory, for every `Toc` held before the call and
every content, the embedded algorithm returns a result: the branch taken on a nil
dereference is never reached. -/
theorem C11_GenTOC_total (heap : Heap) (toc : List Nat) (content : List Char) :
    ∃ heap1 toc1,
      GenTOC heap { Content := content, Toc := toc } =
        some (heap1, { Content := content, Toc := toc1 }) := by
  obtain ⟨s, -, -, h⟩ := GenTOC_shift heap toc content
  exact ⟨_, _, h⟩

/-- C12: when no line of the content is a heading line (the empty content included),
`GenTOC` on an article with an empty `Toc` returns, stores no node and leaves `Toc`
empty. -/
theorem C12_no_heading_empty_toc (heap : Heap) (content : List Char)
    (h : ∀ line ∈ splitLines content, titleRegex line = none) :
    GenTOC heap { Content := content, Toc := [] } =
      some (heap, { Content := content, Toc := [] }) := by
  simp only [GenTOC, genLoop_no_heading (splitLines content) h]

/-- C12, at a content of four lines none of which is a heading line (text, seven
markers, markers without a blank after them, an empty last line). -/
theorem C12_no_heading_empty_toc_witness :
    GenTOC [] { Content := "intro\n####### seven\n#nospace\n".toList, Toc := [] } =
      some ([], { Content := "intro\n####### seven\n#nospace\n".toList, Toc := [] }) :=
  C12_no_heading_empty_toc [] "intro\n####### seven\n#nospace\n".toList (by decide)

/-- C13: when the heading lines of the content have strictly increasing levels (with or
without gaps), `GenTOC` from an empty `Toc` stores the headings in order at the addresses
0, 1, 2, ...; `Toc` is the single root 0 (when there is a heading at all), every later node
has the node before it as `Parent` and is its only child, the last node has no children,
and the i-th node has `ShowLevel` i + 2: 2, 3, 4, ... in document order. -/
theorem C13_increasing_levels_chain (content : List Char)
    (hinc : List.Chain' (fun a b : List Char × List Char => a.1.length < b.1.length)
      (headingLines content)) :
    ∃ heap toc,
      GenTOC [] { Content := content, Toc := [] } =
          some (heap, { Content := content, Toc := toc }) ∧
        heap.map lineData = (headingLines content).map headingData ∧
        toc = (if 0 < heap.length then [0] else []) ∧
        ∀ (i : Nat) (nd : ArticleTOC), heap[i]? = some nd →
          nd.Parent = (if i = 0 then none else some (i - 1)) ∧
          nd.SubTitles = (if i + 1 < heap.length then [i + 1] else []) ∧
          nd.ShowLevel = (i : Int) + 2 := by
  obtain ⟨s, hs, wf, hdata⟩ := GenTOC_fresh content
  have hrun := GenTOC_of_headings content
  rw [hs] at hrun
  -- the shape of the heap after the run
  have hshape : ∀ i, i < s.heap.length →
      pcode s.heap i = i ∧ showAt s.heap i = (i : Int) + 2 := by
    cases hh : headingLines content with
    | nil =>
      rw [hh] at hdata
      have : s.heap.length = 0 := by
        have := congrArg List.length hdata
        simpa using this
      intro i hi
      omega
    | cons m rest =>
      rw [hh] at hinc hrun
      obtain ⟨s0, e0, wf0, hl0, hlv0, hch0⟩ :=
        chain_step { heap := [], Toc := [], currentToc := none } wf_init m.1 m.2
          (fun i hi => by simp at hi) (fun hpos => by simp at hpos)
      have hchain : List.Chain (fun a b : Int => a < b)
          (levelAt s0.heap (s0.heap.length - 1))
          (rest.map (fun m => (m.1.length : Int))) := by
        rw [hl0]
        simp only [List.length_nil, Nat.zero_add, Nat.sub_self] at hlv0 ⊢
        rw [hlv0]
        have h1 : List.Chain (fun a b : List Char × List Char => a.1.length < b.1.length)
            m rest := hinc
        exact (List.chain_map (fun m : List Char × List Char => (m.1.length : Int))).2
          (List.Chain.imp (fun a b hab => by exact_mod_cast hab) h1)
      obtain ⟨s1, e1, -, -, hch1⟩ := chain_run rest s0 wf0 (by omega) hch0 hchain
      simp only [genHeadings, e0, e1, Option.map_some', Option.some.injEq, Prod.mk.injEq,
        Article.mk.injEq, true_and] at hrun
      rw [hrun.1]
      exact hch1
  have hkids : ∀ x, kids s.heap x = if x < s.heap.length then [x] else [] := by
    intro x
    rw [kids_congr s.heap (fun j => j) (fun j hj => (hshape j hj).1) x]
    exact filter_beq_range s.heap.length x
  refine ⟨s.heap, s.Toc, hs, hdata, ?_, fun i nd hi => ?_⟩
  · rw [wf.toc, hkids]
  · have hlt : i < s.heap.length := by
      by_contra hge
      rw [List.getElem?_eq_none (by omega)] at hi
      cases hi
    obtain ⟨h1, h2⟩ := hshape i hlt
    refine ⟨?_, ?_, ?_⟩
    · rw [pcode_of_getElem? s.heap i nd hi] at h1
      cases hp : nd.Parent with
      | none =>
        rw [hp] at h1
        simp only at h1
        rw [if_pos h1.symm]
      | some p =>
        rw [hp] at h1
        simp only at h1
        rw [if_neg (by omega)]
        congr 1
        omega
    · rw [wf.subs i nd hi, hkids]
    · rw [← showAt_of_getElem? s.heap i nd hi]
      exact h2

/-- C13, at a content with the heading levels 1, 4, 5 and a line of text between. -/
theorem C13_increasing_levels_chain_witness :
    ∃ heap toc,
      GenTOC [] { Content := "# A\ntext\n#### B\n##### C".toList, Toc := [] } =
          some (heap, { Content := "# A\ntext\n#### B\n##### C".toList, Toc := toc }) ∧
        heap.map lineData =
          (headingLines "# A\ntext\n#### B\n##### C".toList).map headingData ∧
        toc = (if 0 < heap.length then [0] else []) ∧
        ∀ (i : Nat) (nd : ArticleTOC), heap[i]? = some nd →
          nd.Parent = (if i = 0 then none else some (i - 1)) ∧
          nd.SubTitles = (if i + 1 < heap.length then [i + 1] else []) ∧
          nd.ShowLevel = (i : Int) + 2 :=
  C13_increasing_levels_chain "# A\ntext\n#### B\n##### C".toList (by
    rw [show headingLines "# A\ntext\n#### B\n##### C".toList =
      [("#".toList, "A".toList), ("####".toList, "B".toList), ("#####".toList, "C".toList)]
      from by decide]
    exact List.Chain'.cons (by decide) (List.Chain'.cons (by decide) (List.chain'_singleton _)))

/-- C14: when all heading lines of the content have the same number `d` of markers,
`GenTOC` from an empty `Toc` stores one node per heading line, `Toc` lists all of them in
document order, and each has no parent, `ShowLevel` 2 and no children. -/
theorem C14_same_level_roots (d : Nat) (content : List Char)
    (hd : ∀ m ∈ headingLines content, m.1.length = d) :
    ∃ heap toc,
      GenTOC [] { Content := content, Toc := [] } =
          some (heap, { Content := content, Toc := toc }) ∧
        heap.map lineData = (headingLines content).map headingData ∧
        heap.length = (headingLines content).length ∧
        toc = List.range heap.length ∧
        ∀ nd ∈ heap, nd.Parent = none ∧ nd.SubTitles = [] ∧ nd.ShowLevel = 2 := by
  obtain ⟨s, hs, wf, hdata⟩ := GenTOC_fresh content
  have hrun := GenTOC_of_headings content
  rw [hs] at hrun
  obtain ⟨s1, e1, -, -, hfl1⟩ := flat_run d (headingLines content) hd
    { heap := [], Toc := [], currentToc := none } wf_init (fun i hi => by simp at hi)
  simp only [e1, Option.map_some', Option.some.injEq, Prod.mk.injEq, Article.mk.injEq,
    true_and] at hrun
  rw [← hrun.1] at hfl1
  have hlen : s.heap.length = (headingLines content).length := by
    have := congrArg List.length hdata
    simpa using this
  refine ⟨s.heap, s.Toc, hs, hdata, hlen, ?_, fun nd hnd => ?_⟩
  · rw [wf.toc, kids_congr s.heap (fun _ => 0) (fun j hj => (hfl1 j hj).1) 0]
    exact List.filter_eq_self.mpr (fun j _ => by simp)
  · obtain ⟨i, hi⟩ := List.getElem?_of_mem hnd
    have hlt : i < s.heap.length := by
      by_contra hge
      rw [List.getElem?_eq_none (by omega)] at hi
      cases hi
    obtain ⟨h1, h2, -⟩ := hfl1 i hlt
    refine ⟨?_, ?_, ?_⟩
    · rw [pcode_of_getElem? s.heap i nd hi] at h1
      cases hp : nd.Parent with
      | none => rfl
      | some p =>
        rw [hp] at h1
        simp at h1
    · rw [wf.subs i nd hi, kids_congr s.heap (fun _ => 0) (fun j hj => (hfl1 j hj).1)]
      exact List.filter_eq_nil_iff.mpr (fun j _ => by simp)
    · rw [← showAt_of_getElem? s.heap i nd hi]
      exact h2

/-- C14, at a content with three headings of level 2 and a line of text. -/
theorem C14_same_level_roots_witness :
    ∃ heap toc,
      GenTOC [] { Content := "## A\n## B\nx\n## C".toList, Toc := [] } =
          some (heap, { Content := "## A\n## B\nx\n## C".toList, Toc := toc }) ∧
        heap.map lineData = (headingLines "## A\n## B\nx\n## C".toList).map headingData ∧
        heap.length = (headingLines "## A\n## B\nx\n## C".toList).length ∧
        toc = List.range heap.length ∧
        ∀ nd ∈ heap, nd.Parent = none ∧ nd.SubTitles = [] ∧ nd.ShowLevel = 2 :=
  C14_same_level_roots 2 "## A\n## B\nx\n## C".toList (by decide)

/-- C15: lines that are not heading lines have no effect. Two contents with the same
sequence of heading lines make `GenTOC` (from an empty `Toc`) store the same nodes and the
same `Toc`, hence read as the same forest at every depth; in particular a content with one
more line that is not a heading line gives the same result. -/
theorem C15_non_heading_lines_ignored :
    (∀ c1 c2 : List Char,
      (splitLines c1).filter (fun l => (titleRegex l).isSome) =
          (splitLines c2).filter (fun l => (titleRegex l).isSome) →
        ∃ heap toc,
          GenTOC [] { Content := c1, Toc := [] } =
              some (heap, { Content := c1, Toc := toc }) ∧
            GenTOC [] { Content := c2, Toc := [] } =
              some (heap, { Content := c2, Toc := toc }) ∧
            ∀ d, forestOf c1 d = forestOf c2 d) ∧
    (∀ (c1 c2 : List Char) (pre post : List (List Char)) (x : List Char),
      splitLines c1 = pre ++ post → splitLines c2 = pre ++ x :: post →
        titleRegex x = none →
        ∃ heap toc,
          GenTOC [] { Content := c1, Toc := [] } =
              some (heap, { Content := c1, Toc := toc }) ∧
            GenTOC [] { Content := c2, Toc := [] } =
              some (heap, { Content := c2, Toc := toc }) ∧
            ∀ d, forestOf c1 d = forestOf c2 d) := by
  constructor
  · intro c1 c2 h
    apply same_headings_same_run
    unfold headingLines
    rw [filterMap_filter_isSome titleRegex (splitLines c1),
      filterMap_filter_isSome titleRegex (splitLines c2), h]
  · intro c1 c2 pre post x h1 h2 hx
    apply same_headings_same_run
    unfold headingLines
    rw [h1, h2, List.filterMap_append, List.filterMap_append, List.filterMap_cons_none hx]

/-- C15, at two contents with the heading lines `# A`, `## B` and different other lines:
both runs store the same two nodes. -/
theorem C15_non_heading_lines_ignored_witness :
    ∃ heap toc,
      GenTOC [] { Content := "# A\n## B".toList, Toc := [] } =
          some (heap, { Content := "# A\n## B".toList, Toc := toc }) ∧
        GenTOC [] { Content := "intro\n# A\n\ntext #\n## B\n".toList, Toc := [] } =
          some (heap, { Content := "intro\n# A\n\ntext #\n## B\n".toList, Toc := toc }) ∧
        ∀ d, forestOf "# A\n## B".toList d =
          forestOf "intro\n# A\n\ntext #\n## B\n".toList d :=
  C15_non_heading_lines_ignored.1 "# A\n## B".toList
    "intro\n# A\n\ntext #\n## B\n".toList (by decide)

/-- C16 (as stated it fails): after `# A`, `## B` the last node B has the parent A, which
has no parent, yet the next heading `## C` does not become a root: it is attached under A
itself. After `# A`, `## B`, `### C` the last node C has the parent B, whose parent is A,
yet the next heading `### D` gets `Parent` = B, not A. -/
theorem C16_sibling_goes_under_parent :
    (genLoop { heap := [], Toc := [], currentToc := none } (splitLines "# A\n## B".toList) =
        some { heap := [⟨"A".toList, "A".toList, [1], none, 1, 2⟩,
                        ⟨"B".toList, "B".toList, [], some 0, 2, 3⟩]
               Toc := [0]
               currentToc := some 1 } ∧
      addHeading { heap := [⟨"A".toList, "A".toList, [1], none, 1, 2⟩,
                            ⟨"B".toList, "B".toList, [], some 0, 2, 3⟩]
                   Toc := [0]
                   currentToc := some 1 } "##".toList "C".toList =
        some { heap := [⟨"A".toList, "A".toList, [1, 2], none, 1, 2⟩,
                        ⟨"B".toList, "B".toList, [], some 0, 2, 3⟩,
                        ⟨"C".toList, "C".toList, [], some 0, 2, 4⟩]
               Toc := [0]
               currentToc := some 2 }) ∧
    (genLoop { heap := [], Toc := [], currentToc := none }
          (splitLines "# A\n## B\n### C".toList) =
        some { heap := [⟨"A".toList, "A".toList, [1], none, 1, 2⟩,
                        ⟨"B".toList, "B".toList, [2], some 0, 2, 3⟩,
                        ⟨"C".toList, "C".toList, [], some 1, 3, 4⟩]
               Toc := [0]
               currentToc := some 2 } ∧
      addHeading { heap := [⟨"A".toList, "A".toList, [1], none, 1, 2⟩,
                            ⟨"B".toList, "B".toList, [2], some 0, 2, 3⟩,
                            ⟨"C".toList, "C".toList, [], some 1, 3, 4⟩]
                   Toc := [0]
                   currentToc := some 2 } "###".toList "D".toList =
        some { heap := [⟨"A".toList, "A".toList, [1], none, 1, 2⟩,
                        ⟨"B".toList, "B".toList, [2, 3], some 0, 2, 3⟩,
                        ⟨"C".toList, "C".toList, [], some 1, 3, 4⟩,
                        ⟨"D".toList, "D".toList, [], some 1, 3, 5⟩]
               Toc := [0]
               currentToc := some 3 }) := by
  decide

/-- C16 (amended): when the new heading has the same `Level` as the node `currentToc`
points to, it is appended to `Toc` as a new root if that node has no parent, and is
otherwise stored as the new last child of that node's parent `p`, with `Parent` = `p`. -/
theorem C16_sibling_step (s : GenState) (cur : Nat) (c : ArticleTOC) (m1 m2 : List Char)
    (hc : s.currentToc = some cur) (hn : s.heap[cur]? = some c)
    (hl : c.Level = (m1.length : Int)) :
    (c.Parent = none →
      addHeading s m1 m2 =
        some { heap := s.heap ++ [newToc m1 m2]
               Toc := s.Toc ++ [s.heap.length]
               currentToc := some s.heap.length }) ∧
    (∀ (p : Nat) (pn : ArticleTOC), c.Parent = some p → s.heap[p]? = some pn →
      ∃ sh, addHeading s m1 m2 =
        some { heap :=
                 s.heap.set p { pn with SubTitles := pn.SubTitles ++ [s.heap.length] } ++
                   [{ newToc m1 m2 with Parent := some p, ShowLevel := sh }]
               Toc := s.Toc
               currentToc := some s.heap.length }) := by
  constructor
  · intro hp
    rw [addHeading_sibling_root s m1 m2 cur c hc hn hl hp]
    rfl
  · intro p pn hp hpn
    refine ⟨c.ShowLevel + 1, ?_⟩
    rw [addHeading_sibling s m1 m2 cur p c hc hn hl hp, attach_eq s _ p _ pn hpn]

/-- C16 (amended), in the state left by `# A`, `## B` for a further heading `## C`: the
new node becomes the last child of A, the parent of B. -/
theorem C16_sibling_step_witness :
    ∃ sh, addHeading { heap := [⟨"A".toList, "A".toList, [1], none, 1, 2⟩,
                                ⟨"B".toList, "B".toList, [], some 0, 2, 3⟩]
                       Toc := [0]
                       currentToc := some 1 } "##".toList "C".toList =
      some { heap := [⟨"A".toList, "A".toList, [1, 2], none, 1, 2⟩,
                      ⟨"B".toList, "B".toList, [], some 0, 2, 3⟩,
                      { newToc "##".toList "C".toList with Parent := some 0, ShowLevel := sh }]
             Toc := [0]
             currentToc := some 2 } :=
  (C16_sibling_step { heap := [⟨"A".toList, "A".toList, [1], none, 1, 2⟩,
                               ⟨"B".toList, "B".toList, [], some 0, 2, 3⟩]
                      Toc := [0]
                      currentToc := some 1 } 1 ⟨"B".toList, "B".toList, [], some 0, 2, 3⟩
    "##".toList "C".toList rfl rfl (by decide)).2 0
    ⟨"A".toList, "A".toList, [1], none, 1, 2⟩ rfl rfl

/-- C17: for the lines `# A`, `### B`, `## C` the walk up from B stops at A. The forest
has the single root A with the children B then C, C has `Parent` = A and `ShowLevel` 3,
and B has no children. -/
theorem C17_levels_1_3_2 :
    GenTOC [] { Content := "# A\n### B\n## C".toList, Toc := [] } =
        some ([{ Title := "A".toList, Slug := "A".toList, SubTitles := [1, 2],
                 Parent := none, Level := 1, ShowLevel := 2 },
               { Title := "B".toList, Slug := "B".toList, SubTitles := [],
                 Parent := some 0, Level := 3, ShowLevel := 3 },
               { Title := "C".toList, Slug := "C".toList, SubTitles := [],
                 Parent := some 0, Level := 2, ShowLevel := 3 }],
              { Content := "# A\n### B\n## C".toList, Toc := [0] }) ∧
      forestOf "# A\n### B\n## C".toList 3 =
        [TocTree.node "A".toList "A".toList 1 2
          [TocTree.node "B".toList "B".toList 3 3 [],
           TocTree.node "C".toList "C".toList 2 3 []]] := by
  refine ⟨by decide, by rfl⟩

/-- C18: in every state the loop reaches from an empty `Toc`, when the next heading is
shallower than the node `currentToc` points to, the bounded loop returns the nearest
proper ancestor of that node whose `Level` is below the new one, or `nil` when there is
none; any larger bound returns the same; the new node becomes a root exactly in the `nil`
case and is otherwise stored under that ancestor, whose `Level` is below its own. -/
theorem C18_walk_bound_never_matters (lines : List (List Char)) (m1 m2 : List Char) :
    ∃ s, genLoop { heap := [], Toc := [], currentToc := none } lines = some s ∧
      ∀ (cur : Nat) (c : ArticleTOC), s.currentToc = some cur → s.heap[cur]? = some c →
        c.Level > (m1.length : Int) →
        ∃ r, walkUp s.heap (m1.length : Int) (Int.toNat (c.Level - (m1.length : Int) + 1))
              (some cur) = some r ∧
          NearestShallower s.heap (m1.length : Int) cur r ∧
          (∀ k, Int.toNat (c.Level - (m1.length : Int) + 1) ≤ k →
            walkUp s.heap (m1.length : Int) k (some cur) = some r) ∧
          (r = none → addHeading s m1 m2 = some (appendRoot s (newToc m1 m2))) ∧
          (∀ a, r = some a →
            ∃ pn, s.heap[a]? = some pn ∧ pn.Level < (m1.length : Int) ∧
              addHeading s m1 m2 =
                some { heap :=
                         s.heap.set a
                             { pn with SubTitles := pn.SubTitles ++ [s.heap.length] } ++
                           [{ newToc m1 m2 with
                              Parent := some a, ShowLevel := pn.ShowLevel + 1 }]
                       Toc := s.Toc
                       currentToc := some s.heap.length }) := by
  obtain ⟨s, hrun, wf, hrise, -⟩ := fresh_inv lines
  refine ⟨s, hrun, fun cur c hc hn hgt => ?_⟩
  have hcur := lt_of_getElem? s.heap cur c hn
  have hlc : levelAt s.heap cur = c.Level := levelAt_of_getElem? s.heap cur c hn
  obtain ⟨r, hw, hnear⟩ := walkUp_nearest s wf hrise (m1.length : Int)
    (Int.toNat (c.Level - (m1.length : Int) + 1)) cur hcur (by omega) (by omega)
  have hadd := addHeading_ascend s m1 m2 cur c hc hn hgt r hw
  refine ⟨r, hw, hnear, fun k hk => ?_, fun hr => ?_, fun a hr => ?_⟩
  · rw [walkUp_ge s wf hrise (m1.length : Int) cur hcur (by omega) _ (by omega) k hk, hw]
  · subst hr
    exact hadd
  · subst hr
    obtain ⟨n1, n2, -⟩ := hnear
    have hlt := properAnc_lt wf n1
    obtain ⟨pn, hpn⟩ := getElem?_of_lt s.heap a (by omega)
    refine ⟨pn, hpn, ?_, ?_⟩
    · rw [← levelAt_of_getElem? s.heap a pn hpn]
      exact n2
    · rw [hadd]
      simp only [hpn]
      exact attach_eq s _ a _ pn hpn

/-- C19: after every processed line of every content (so also at the end, in the result
of `GenTOC`), every node with a parent has a `Level` greater than its parent's; every
`Level` is from 1 to 6, so going up from any node takes at most 5 parent links: no path
from a root has more than 6 nodes. -/
theorem C19_levels_rise (content : List Char) (k : Nat) :
    ∃ s, genLoop { heap := [], Toc := [], currentToc := none }
          ((splitLines content).take k) = some s ∧
      ((splitLines content).length ≤ k →
        GenTOC [] { Content := content, Toc := [] } =
          some (s.heap, { Content := content, Toc := s.Toc })) ∧
      (∀ (i p : Nat) (nd pn : ArticleTOC), s.heap[i]? = some nd → nd.Parent = some p →
        s.heap[p]? = some pn → pn.Level < nd.Level) ∧
      (∀ (i : Nat) (nd : ArticleTOC), s.heap[i]? = some nd → 1 ≤ nd.Level ∧ nd.Level ≤ 6) ∧
      ∀ c a j : Nat, AncSteps s.heap c a j → j ≤ 5 := by
  obtain ⟨s, hrun, wf, hrise, hrange, hfinal⟩ := prefix_inv content k
  refine ⟨s, hrun, hfinal, fun i p nd pn hi hp hpn => ?_, hrange, fun c a j hsteps => ?_⟩
  · have hpc : pcode s.heap i = p + 1 := by
      rw [pcode_of_getElem? s.heap i nd hi, hp]
    have := hrise i p hpc
    rw [levelAt_of_getElem? s.heap i nd hi, levelAt_of_getElem? s.heap p pn hpn] at this
    exact this
  · obtain ⟨h1, h2⟩ := ancSteps_level s wf hrise hsteps
    cases hsteps with
    | self => omega
    | up _ b _ j2 hp hrest =>
      have hc := pcode_pos_lt s.heap c b hp
      obtain ⟨cn, hcn⟩ := getElem?_of_lt s.heap c hc
      obtain ⟨an, han⟩ := getElem?_of_lt s.heap a (by omega)
      have r1 := (hrange c cn hcn).2
      have r2 := (hrange a an han).1
      rw [levelAt_of_getElem? s.heap c cn hcn, levelAt_of_getElem? s.heap a an han] at h1
      push_cast at h1
      omega

/-- C20: after every processed line of every content (so also in the result of `GenTOC`),
`m` is in the `SubTitles` of `n` iff the `Parent` of `m` is `n`; a node without parent is
exactly once in `Toc` and in no `SubTitles`; a node with a parent is not in `Toc`, exactly
once in the `SubTitles` of its parent and in no other; `Toc` holds stored nodes only; and
`currentToc` is the last node of the pre-order walk of the forest (`nil` when the forest
is empty). -/
theorem C20_links_agree (content : List Char) (k : Nat) :
    ∃ s, genLoop { heap := [], Toc := [], currentToc := none }
          ((splitLines content).take k) = some s ∧
      ((splitLines content).length ≤ k →
        GenTOC [] { Content := content, Toc := [] } =
          some (s.heap, { Content := content, Toc := s.Toc })) ∧
      (∀ (m n : Nat) (nd : ArticleTOC), s.heap[n]? = some nd →
        (m ∈ nd.SubTitles ↔ ∃ md, s.heap[m]? = some md ∧ md.Parent = some n)) ∧
      (∀ (m : Nat) (md : ArticleTOC), s.heap[m]? = some md →
        (md.Parent = none →
          s.Toc.count m = 1 ∧
            ∀ (n : Nat) (nd : ArticleTOC), s.heap[n]? = some nd → m ∉ nd.SubTitles) ∧
        (∀ p : Nat, md.Parent = some p →
          m ∉ s.Toc ∧ (∃ pn, s.heap[p]? = some pn ∧ pn.SubTitles.count m = 1) ∧
            ∀ (n : Nat) (nd : ArticleTOC), s.heap[n]? = some nd → n ≠ p →
              m ∉ nd.SubTitles)) ∧
      (∀ r ∈ s.Toc, r < s.heap.length) ∧
      ∀ d, s.heap.length ≤ d → (preorder s.heap d s.Toc).getLast? = s.currentToc := by
  obtain ⟨s, hrun, wf, -, -, hfinal⟩ := prefix_inv content k
  refine ⟨s, hrun, hfinal, fun m n nd hn => ?_, fun m md hm => ⟨fun hp => ?_, fun p hp => ?_⟩,
    fun r hr => ?_, fun d hd => ?_⟩
  · rw [wf.subs n nd hn, mem_kids, pcode_eq_succ_iff]
    constructor
    · rintro ⟨-, h⟩
      exact h
    · rintro ⟨md, h1, h2⟩
      exact ⟨lt_of_getElem? s.heap m md h1, md, h1, h2⟩
  · have hpc := pcode_eq_zero_of_root s.heap m md hm hp
    have hlt := lt_of_getElem? s.heap m md hm
    constructor
    · rw [wf.toc]
      exact List.count_eq_one_of_mem (kids_nodup s.heap 0) ((mem_kids s.heap 0 m).2 ⟨hlt, hpc⟩)
    · intro n nd hn hmem
      rw [wf.subs n nd hn, mem_kids] at hmem
      omega
  · have hpc : pcode s.heap m = p + 1 := by
      rw [pcode_of_getElem? s.heap m md hm, hp]
    have hlt := lt_of_getElem? s.heap m md hm
    have hpm : p < m := by
      have := wf.par m
      omega
    obtain ⟨pn, hpn⟩ := getElem?_of_lt s.heap p (by omega)
    refine ⟨fun hmem => ?_, ⟨pn, hpn, ?_⟩, fun n nd hn hne hmem => ?_⟩
    · rw [wf.toc, mem_kids] at hmem
      omega
    · rw [wf.subs p pn hpn]
      exact List.count_eq_one_of_mem (kids_nodup s.heap (p + 1))
        ((mem_kids s.heap (p + 1) m).2 ⟨hlt, hpc⟩)
    · rw [wf.subs n nd hn, mem_kids] at hmem
      omega
  · rw [wf.toc] at hr
    exact kids_lt s.heap 0 r hr
  · rw [preorder_wf s wf d hd, List.getLast?_range, wf.cur]

end Solitudes
